import Mathlib

/-!
# Verification of the anonymization / de-anonymization engine

Shallow embedding of `src/core/anonymizer.py` (`execute_replacement`) and
`src/core/deanonymizer.py` (`restore_by_position`, `restore_by_context`,
`restore_by_canonical`, `run_deanonymize`).

Modelling decisions, stated once here:

* Document text is `List Char` (`Str`); Python string slices, `str.find`,
  and concatenation are embedded positionally over lists.
* Python `dict` (insertion-ordered, assignment overwrites the value in
  place) is an association list with `insertOW` / `updateA` / `lookupA`.
* Python `set` is an insertion-ordered duplicate-free list (`addToSet`).
  CPython iterates sets in hash order; within one process over identical
  inputs that order is fixed, which is what the determinism claims are
  about, so a fixed insertion order is a faithful deterministic model.
* `difflib.SequenceMatcher(...).ratio()` is abstracted as a parameter
  `sim : Str → Str → ℚ` of the restoration pipeline; the spec (§9) states
  the concrete similarity metric is not load-bearing, and every claim
  about Step B is proved for an arbitrary `sim`.
* `datetime.now()` (`metadata.created_at`) is dropped: wall-clock input,
  referenced by no claim.
* The substitution loop `while True: pos = text.find(...)` is embedded
  with explicit fuel `text.length + 1`, which is proved sufficient for
  every nonempty literal; on an empty literal the Python loop does not
  terminate, so no terminating embedding can (or need) match it there.
-/

/-- Document text: Python `str` as a list of characters. -/
abbrev Str := List Char

/-- `occAt n h i`: the string `n` occurs in `h` at character offset `i`. -/
def occAt (n h : Str) (i : ℕ) : Prop :=
  i + n.length ≤ h.length ∧ (h.drop i).take n.length = n

/-- `n` occurs somewhere in `h` (Python `n in h`). -/
def occurs (n h : Str) : Prop := ∃ i, occAt n h i

/-- Boolean test that `n` is an initial segment of `h`. -/
def isPrefOf : Str → Str → Bool
  | [], _ => true
  | _ :: _, [] => false
  | a :: as, b :: bs => a == b && isPrefOf as bs

/-- Scanner for `str.find`: try each offset of the suffix in turn,
`i` is the absolute offset of the suffix head. -/
def findFromAux : List Char → Str → ℕ → Option ℕ
  | [], n, i => if n = [] then some i else none
  | c :: rest, n, i =>
    if isPrefOf n (c :: rest) then some i else findFromAux rest n (i + 1)

/-- Python `h.find(n, start)`: least offset `≥ start` where `n` occurs,
`none` for `-1`.  (`find` with `start > len(h)` returns `-1`.) -/
def strFindFrom (h n : Str) (start : ℕ) : Option ℕ :=
  if start ≤ h.length then findFromAux (h.drop start) n start else none

/-- Python `t[:pos] + ins + t[pos+len:]`. -/
def replaceAt (t : Str) (pos len : ℕ) (ins : Str) : Str :=
  t.take pos ++ ins ++ t.drop (pos + len)

/-- Python `t[max(0, pos-40):pos]`, the recorded 40-char left context. -/
def sliceCtxBefore (t : Str) (pos : ℕ) : Str :=
  (t.drop (pos - 40)).take (pos - (pos - 40))

/-- Python `t[q:q+40]`, the recorded 40-char right context. -/
def sliceCtxAfter (t : Str) (q : ℕ) : Str :=
  (t.drop q).take 40

/-- Whitespace stripped by Python `str.strip()` (ASCII fragment). -/
def isPySpace (c : Char) : Bool :=
  c == ' ' || c == '\t' || c == '\n' || c == '\r' || c == '\x0b' || c == '\x0c'

/-- Python `s.strip()`. -/
def pstrip (s : Str) : Str :=
  ((s.dropWhile isPySpace).reverse.dropWhile isPySpace).reverse

/-- Python `s.upper()` (ASCII fragment, via `Char.toUpper`). -/
def pyUpper (s : Str) : Str := s.map Char.toUpper

/-- Decimal digit character. -/
def digitChar (d : ℕ) : Char := Char.ofNat (48 + d)

/-- Fuel-driven decimal conversion (`str(n)` for `int`). -/
def natDigitsAux : ℕ → ℕ → Str
  | 0, _ => []
  | fuel + 1, n =>
    if n < 10 then [digitChar n]
    else natDigitsAux fuel (n / 10) ++ [digitChar (n % 10)]

/-- Python `str(n)` for a nonnegative `int`. -/
def natDigits (n : ℕ) : Str := natDigitsAux (n + 1) n

/-- Stable insertion for a descending sort: `x` goes in front of the first
element whose weight is `≤` its own, so among equal weights the earlier
input element stays first — exactly CPython's stable `sorted(..., reverse=True)`. -/
def insByDesc {α : Type} (wt : α → ℕ) (x : α) : List α → List α
  | [] => [x]
  | y :: ys => if wt y ≤ wt x then x :: y :: ys else y :: insByDesc wt x ys

/-- Stable descending sort by a numeric weight: Python
`sorted(l, key=wt, reverse=True)`. -/
def sortByDesc {α : Type} (wt : α → ℕ) (l : List α) : List α :=
  l.foldr (insByDesc wt) []

/-- Association-list lookup (Python `d[k]` / `d.get(k)`). -/
def lookupA {β : Type} : List (Str × β) → Str → Option β
  | [], _ => none
  | (k', v) :: rest, k => if k' = k then some v else lookupA rest k

/-- Python `k in d`. -/
def containsKeyA {β : Type} (m : List (Str × β)) (k : Str) : Bool :=
  (lookupA m k).isSome

/-- Python `d[k] = v`: overwrite in place, append if the key is new
(dict preserves first-insertion position of a key). -/
def insertOW {β : Type} : List (Str × β) → Str → β → List (Str × β)
  | [], k, v => [(k, v)]
  | (k', v') :: rest, k, v =>
    if k' = k then (k', v) :: rest else (k', v') :: insertOW rest k v

/-- Python `d[k] = f(d[k])` on an existing key. -/
def updateA {β : Type} : List (Str × β) → Str → (β → β) → List (Str × β)
  | [], _, _ => []
  | (k', v) :: rest, k, f =>
    if k' = k then (k', f v) :: rest else (k', v) :: updateA rest k f

/-- Python `s.add(x)` on an insertion-ordered set model. -/
def addToSet (s : List Str) (x : Str) : List Str :=
  if x ∈ s then s else s ++ [x]

/-- One entity mention as handed to `execute_replacement`
(`entity.get("text", "")`, `entity.get("type", "unknown")`,
`entity.get("canonical", "")` already applied). -/
structure Entity where
  text : Str
  type : Str
  canonical : Str
deriving DecidableEq, Repr

/-- One Pass-1 alias group. -/
structure AliasGroup where
  canonical : Str
  type : Str
  aliases : List Str
deriving DecidableEq, Repr

/-- Pass-1 result, restricted to the field `execute_replacement` reads. -/
structure Pass1Result where
  aliases : List AliasGroup
deriving DecidableEq, Repr

/-- `canonical_groups[key]`: `{"type": ..., "texts": set, "aliases": list}`. -/
structure GroupInfo where
  type : Str
  texts : List Str
  aliases : List Str
deriving DecidableEq, Repr

/-- Loop body of anonymizer.py lines 219-238: one entity folded into
`canonical_groups`. -/
def groupStep (groups : List (Str × GroupInfo)) (e : Entity) : List (Str × GroupInfo) :=
  let et := pstrip e.text
  if et = [] then groups
  else
    let can := pstrip e.canonical
    let key := if can = [] then et else can
    let groups' :=
      if containsKeyA groups key then groups
      else groups ++ [(key, ⟨e.type, [], []⟩)]
    updateA groups' key (fun gi =>
      let ts := addToSet gi.texts et
      let ts' := if can = [] then ts else addToSet ts can
      { gi with texts := ts' })

/-- anonymizer.py lines 217-238: build `canonical_groups` from the entity list. -/
def buildGroups (entities : List Entity) : List (Str × GroupInfo) :=
  entities.foldl groupStep []

/-- Loop body of anonymizer.py lines 241-246: fold one Pass-1 alias group in. -/
def aliasStep (groups : List (Str × GroupInfo)) (ag : AliasGroup) : List (Str × GroupInfo) :=
  if containsKeyA groups ag.canonical then
    updateA groups ag.canonical (fun gi =>
      { gi with texts := ag.aliases.foldl addToSet gi.texts,
                aliases := gi.aliases ++ ag.aliases })
  else groups

/-- anonymizer.py lines 240-246. -/
def addPass1Aliases (groups : List (Str × GroupInfo)) (p1 : Pass1Result) : List (Str × GroupInfo) :=
  p1.aliases.foldl aliasStep groups

/-- `placeholder_map[placeholder]`: `{"value": ..., "type": ..., "aliases": ...}`. -/
structure PhInfo where
  value : Str
  type : Str
  aliases : List Str
deriving DecidableEq, Repr

/-- `"{" + f"{entity_type}_{counter}" + "}"` with `typ` already uppercased. -/
def mkPlaceholder (typ : Str) (n : ℕ) : Str :=
  '{' :: (typ ++ '_' :: natDigits n ++ ['}'])

/-- The three dictionaries grown by the assignment loop
(anonymizer.py lines 249-270). -/
structure AssignState where
  counters : List (Str × ℕ)
  phMap : List (Str × PhInfo)
  flat : List (Str × Str)
deriving DecidableEq, Repr

/-- Loop body of anonymizer.py lines 253-270: one canonical group gets a
numbered placeholder; every member string is written into the flat
literal-to-placeholder map, overwriting any earlier assignment. -/
def assignStep (st : AssignState) (g : Str × GroupInfo) : AssignState :=
  let etype := pyUpper g.2.type
  let counters :=
    match lookupA st.counters etype with
    | none => insertOW st.counters etype 1
    | some c => insertOW st.counters etype (c + 1)
  let n := (lookupA counters etype).getD 1
  let ph := mkPlaceholder etype n
  let info : PhInfo :=
    { value := g.1, type := g.2.type, aliases := g.2.texts.filter (fun t => t ≠ g.1) }
  { counters := counters,
    phMap := insertOW st.phMap ph info,
    flat := g.2.texts.foldl (fun m t => insertOW m t ph) st.flat }

/-- anonymizer.py lines 249-270. -/
def assignAll (groups : List (Str × GroupInfo)) : AssignState :=
  groups.foldl assignStep ⟨[], [], []⟩

/-- One entry of `replacement_log`. -/
structure RepRec where
  placeholder : Str
  original_text : Str
  position : ℕ
  context_before : Str
  context_after : Str
deriving DecidableEq, Repr

/-- anonymizer.py lines 281-306: the `while True` scan of one literal over
the current text.  Each hit records provenance, splices the placeholder
in, and resumes at `pos + len(placeholder)`.  Fuel-driven; fuel
`t.length + 1` is sufficient for a nonempty literal. -/
def passLoop (L ph : Str) : ℕ → Str → ℕ → Str × List RepRec
  | 0, t, _ => (t, [])
  | fuel + 1, t, start =>
    match strFindFrom t L start with
    | none => (t, [])
    | some pos =>
      let r : RepRec := ⟨ph, L, pos, sliceCtxBefore t pos, sliceCtxAfter t (pos + L.length)⟩
      let t' := replaceAt t pos L.length ph
      let res := passLoop L ph fuel t' (pos + ph.length)
      (res.1, r :: res.2)

/-- anonymizer.py lines 278-306: the outer `for entity_text in sorted_texts`
loop, one `passLoop` per literal, logs concatenated in pass order. -/
def runPasses : List (Str × Str) → Str → Str × List RepRec
  | [], t => (t, [])
  | (L, ph) :: rest, t =>
    let p := passLoop L ph (t.length + 1) t 0
    let q := runPasses rest p.1
    (q.1, p.2 ++ q.2)

/-- The mapping artifact (`metadata.created_at` omitted: wall clock). -/
structure MappingDict where
  source_file : Str
  entity_count : ℕ
  mappings : List (Str × PhInfo)
  replacement_log : List RepRec
deriving DecidableEq, Repr

/-- anonymizer.py line 273: `sorted(text_to_placeholder.keys(), key=len,
reverse=True)` — stable, longest first. -/
def sortedLiterals (flat : List (Str × Str)) : List Str :=
  sortByDesc (fun s => s.length) (flat.map Prod.fst)

/-- Each sorted literal paired with `text_to_placeholder[entity_text]`. -/
def literalPairs (flat : List (Str × Str)) : List (Str × Str) :=
  (sortedLiterals flat).map (fun L => (L, (lookupA flat L).getD []))

/-- anonymizer.py lines 198-319: `execute_replacement`. -/
def execute_replacement (text : Str) (entities : List Entity) (p1 : Pass1Result)
    (source_filename : Str) : Str × MappingDict :=
  let groups := addPass1Aliases (buildGroups entities) p1
  let st := assignAll groups
  let res := runPasses (literalPairs st.flat) text
  (res.1, ⟨source_filename, groups.length, st.phMap, res.2⟩)

/-- deanonymizer.py lines 34-55: one `replacement_log` entry of Step A —
search the `±50` window around the recorded position for the placeholder,
splice the original text over the first hit.  Also returns the absolute
offset actually replaced, for provenance statements. -/
def posStep (t : Str) (e : RepRec) : Str × Option ℕ :=
  let search_start := e.position - 50
  let search_end := min t.length (e.position + e.placeholder.length + 50)
  let region := (t.drop search_start).take (search_end - search_start)
  match strFindFrom region e.placeholder 0 with
  | some lp =>
    (replaceAt t (search_start + lp) e.placeholder.length e.original_text,
     some (search_start + lp))
  | none => (t, none)

/-- Step A main loop over the position-sorted log; the fourth component
records, per entry, the recorded position and the offset actually
replaced (`none` when unmatched). -/
def posGo : List RepRec → Str → Str × ℕ × ℕ × List (ℕ × Option ℕ)
  | [], t => (t, 0, 0, [])
  | e :: rest, t =>
    let s := posStep t e
    let r := posGo rest s.1
    match s.2 with
    | some a => (r.1, r.2.1 + 1, r.2.2.1, (e.position, some a) :: r.2.2.2)
    | none => (r.1, r.2.1, r.2.2.1 + 1, (e.position, none) :: r.2.2.2)

/-- deanonymizer.py lines 17-57: `restore_by_position`. -/
def restore_by_position (t : Str) (log : List RepRec) : Str × ℕ × ℕ :=
  let r := posGo (sortByDesc (fun e => e.position) log) t
  (r.1, r.2.1, r.2.2.1)

/-- The per-entry `(recorded position, actual replaced offset)` trace of
`restore_by_position`, projected from the same `posGo` run. -/
def posTrace (t : Str) (log : List RepRec) : List (ℕ × Option ℕ) :=
  (posGo (sortByDesc (fun e => e.position) log) t).2.2.2

/-- ASCII `[A-Z]`. -/
def isUpperAZ (c : Char) : Bool := 'A' ≤ c && c ≤ 'Z'

/-- ASCII `[0-9]`. -/
def isDigit09 (c : Char) : Bool := '0' ≤ c && c ≤ '9'

/-- Try to match the token pattern at the head of the suffix:
one `{`, one-or-more uppercase letters, `_`, one-or-more digits, `}`. -/
def tryTok : List Char → Option Str
  | '{' :: rest =>
    let us := rest.takeWhile isUpperAZ
    if us = [] then none
    else
      match rest.drop us.length with
      | '_' :: rest2 =>
        let ds := rest2.takeWhile isDigit09
        if ds = [] then none
        else
          match rest2.drop ds.length with
          | '}' :: _ => some ('{' :: us ++ '_' :: ds ++ ['}'])
          | _ => none
      | _ => none
  | _ => none

/-- Leftmost, non-overlapping scan for the token pattern, with absolute
offsets — `re.finditer` for this pattern.  Fuel-driven; fuel
`t.length + 1` always suffices since every step consumes a character. -/
def findTokensAux : ℕ → List Char → ℕ → List (ℕ × Str)
  | 0, _, _ => []
  | _ + 1, [], _ => []
  | fuel + 1, c :: rest, i =>
    match tryTok (c :: rest) with
    | some tk => (i, tk) :: findTokensAux fuel ((c :: rest).drop tk.length) (i + tk.length)
    | none => findTokensAux fuel rest (i + 1)

/-- All `\x7b[A-Z]+_\d+\x7d` matches of `t`, as `(offset, token)` pairs. -/
def findTokens (t : Str) : List (ℕ × Str) :=
  findTokensAux (t.length + 1) t 0

/-- The context-similarity oracle: stands for
`difflib.SequenceMatcher(None, a, b).ratio()`. -/
abbrev SimFun := Str → Str → ℚ

/-- `(score_before + score_after) / 2` of deanonymizer.py lines 99-106. -/
def scoreOf (sim : SimFun) (cb ca : Str) (e : RepRec) : ℚ :=
  (sim cb e.context_before + sim ca e.context_after) / 2

/-- Loop body of deanonymizer.py lines 92-110: skip records with a
different placeholder id, keep the best strictly-improving score. -/
def bestFoldStep (sim : SimFun) (tok cb ca : Str) (acc : ℚ × Option RepRec)
    (e : RepRec) : ℚ × Option RepRec :=
  if e.placeholder = tok then
    (if acc.1 < scoreOf sim cb ca e then (scoreOf sim cb ca e, some e) else acc)
  else acc

/-- `best_score = 0; best_entry = None; for entry in replacement_log: ...`. -/
def bestFold (sim : SimFun) (tok cb ca : Str) (log : List RepRec) : ℚ × Option RepRec :=
  log.foldl (bestFoldStep sim tok cb ca) (0, none)

/-- deanonymizer.py lines 83-115: handle one remaining token of Step B —
replace only when `best_entry` exists and its score strictly exceeds 1/2. -/
def contextStep (sim : SimFun) (log : List RepRec) (t : Str) (pos : ℕ) (tok : Str) :
    Str × Bool :=
  let cb := sliceCtxBefore t pos
  let ca := sliceCtxAfter t (pos + tok.length)
  match bestFold sim tok cb ca log with
  | (s, some e) =>
    if (1 : ℚ) / 2 < s then (replaceAt t pos tok.length e.original_text, true)
    else (t, false)
  | (_, none) => (t, false)

/-- Step B main loop over `reversed(remaining_placeholders)`. -/
def contextGo (sim : SimFun) (log : List RepRec) : List (ℕ × Str) → Str → Str × ℕ
  | [], t => (t, 0)
  | (pos, tok) :: rest, t =>
    let s := contextStep sim log t pos tok
    let r := contextGo sim log rest s.1
    (r.1, r.2 + (if s.2 then 1 else 0))

/-- deanonymizer.py lines 63-117: `restore_by_context`. -/
def restore_by_context (sim : SimFun) (t : Str) (log : List RepRec) : Str × ℕ :=
  let ms := findTokens t
  if ms = [] then (t, 0)
  else contextGo sim log ms.reverse t

/-- deanonymizer.py lines 139-149: handle one remaining token of Step C —
tokens whose id is absent from `mappings` are skipped (`continue`). -/
def canonStep (m : List (Str × PhInfo)) (t : Str) (pos : ℕ) (tok : Str) : Str × Bool :=
  match lookupA m tok with
  | some info => (replaceAt t pos tok.length info.value, true)
  | none => (t, false)

/-- Step C main loop over `reversed(remaining)`. -/
def canonGo (m : List (Str × PhInfo)) : List (ℕ × Str) → Str → Str × ℕ
  | [], t => (t, 0)
  | (pos, tok) :: rest, t =>
    let s := canonStep m t pos tok
    let r := canonGo m rest s.1
    (r.1, r.2 + (if s.2 then 1 else 0))

/-- deanonymizer.py lines 123-151: `restore_by_canonical`. -/
def restore_by_canonical (t : Str) (m : List (Str × PhInfo)) : Str × ℕ :=
  canonGo m (findTokens t).reverse t

/-- The statistics record returned by `run_deanonymize`. -/
structure RestoreStats where
  position_matched : ℕ
  context_matched : ℕ
  fallback_count : ℕ
  remaining_placeholders : ℕ
  total_in_log : ℕ
deriving DecidableEq, Repr

/-- deanonymizer.py lines 157-195: `run_deanonymize`, the A-B-C pipeline. -/
def run_deanonymize (sim : SimFun) (t : Str) (mapping : MappingDict) :
    Str × RestoreStats :=
  let a := restore_by_position t mapping.replacement_log
  let b := restore_by_context sim a.1 mapping.replacement_log
  let c := restore_by_canonical b.1 mapping.mappings
  (c.1, ⟨a.2.1, b.2, c.2, (findTokens c.1).length, mapping.replacement_log.length⟩)

/-- No `\x7b` and no `\x7d` anywhere in `s`. -/
def braceFree (s : Str) : Prop := ∀ c ∈ s, c ≠ '{' ∧ c ≠ '}'

instance braceFree.inst (s : Str) : Decidable (braceFree s) := by
  unfold braceFree; infer_instance

/-- `p` begins with `\x7b` and ends with `\x7d` (so it is nonempty). -/
def phWrapped (p : Str) : Prop := p.head? = some '{' ∧ p.getLast? = some '}'

instance phWrapped.inst (p : Str) : Decidable (phWrapped p) := by
  unfold phWrapped; infer_instance

/-- A generated placeholder: `\x7b`, a brace-free body, `\x7d`. -/
def phShapeBF (p : Str) : Prop := ∃ body, p = '{' :: body ++ ['}'] ∧ braceFree body

/-- A trivial similarity oracle, used to instantiate `sim` in closed
statements whose runs never reach Step B scoring. -/
def simZero : SimFun := fun _ _ => 0

/-- Discrete similarity: `1` on equal strings, else `0`. -/
def simDisc : SimFun := fun a b => if a = b then 1 else 0

/-- Constant one-half similarity, for the threshold-boundary statements. -/
def simHalf : SimFun := fun _ _ => (1 : ℚ) / 2

/-! ### Concrete inputs used by the closed statements -/

/-- The §8 scenario document of the spec. -/
def dSc : Str := "John Smith signed. Contact: John Smith at john@x.com.".toList

/-- The §8 scenario entity list. -/
def entsSc : List Entity :=
  [⟨"John Smith".toList, "person".toList, []⟩,
   ⟨"john@x.com".toList, "email".toList, []⟩]

/-- A document with one entity and one alias of it, both occurring. -/
def dAl : Str := "John Smith and J.S.".toList

/-- Two mentions of one identity: the full name and the alias `J.S.`
linked to it through `canonical`. -/
def entsAl : List Entity :=
  [⟨"John Smith".toList, "person".toList, []⟩,
   ⟨"J.S.".toList, "person".toList, "John Smith".toList⟩]

/-- A document whose only entity text is the all-caps defined term
`COMPANY` (common in legal documents). -/
def dCo1 : Str := "the COMPANY pays".toList

/-- A single entity whose literal text equals the uppercased type name. -/
def entsCo1 : List Entity := [⟨"COMPANY".toList, "company".toList, []⟩]

/-- Document for the cross-pass rescan counterexample. -/
def dCo2 : Str := "Acme Corp".toList

/-- Two company entities: the second literal `COMPANY` is a substring of
the placeholder inserted for the first. -/
def entsCo2 : List Entity :=
  [⟨"Acme Corp".toList, "company".toList, []⟩,
   ⟨"COMPANY".toList, "company".toList, []⟩]

/-- Two Step-B candidate records sharing one placeholder id and
identical stored contexts (used by the tie-break witnesses). -/
def recA : RepRec := ⟨"{P_1}".toList, "aa".toList, 0, "x".toList, "y".toList⟩

/-- The later record of the tie. -/
def recB : RepRec := ⟨"{P_1}".toList, "bb".toList, 9, "x".toList, "y".toList⟩

/-- The two-record log for the tie-break witnesses. -/
def logAB : List RepRec := [recA, recB]

/-- A seven-character text holding one `\x7bP_1\x7d` token whose live
contexts equal the stored contexts of `recA`. -/
def tCtx : Str := "x{P_1}y".toList

/-- The token the tie-break witnesses resolve. -/
def tokP : Str := "{P_1}".toList

/-- A one-entity input used by several witnesses. -/
def dW : Str := "Hi John Smith!".toList

/-- Its entity list. -/
def entsW : List Entity := [⟨"John Smith".toList, "person".toList, []⟩]

/-! ## Basic facts about the string primitives -/

lemma isPrefOf_iff (n h : Str) : isPrefOf n h = true ↔ h.take n.length = n := by
  induction n generalizing h with
  | nil => simp [isPrefOf]
  | cons a as ih =>
    cases h with
    | nil => simp [isPrefOf]
    | cons b bs =>
      simp only [isPrefOf, Bool.and_eq_true, beq_iff_eq, List.length_cons,
        List.take_succ_cons, List.cons.injEq, ih]
      tauto

lemma take_len_le {n h : Str} (e : h.take n.length = n) : n.length ≤ h.length := by
  have := congrArg List.length e
  simp only [List.length_take] at this
  omega

lemma occAt_iff_isPrefOf (n h : Str) (i : ℕ) :
    occAt n h i ↔ i ≤ h.length ∧ isPrefOf n (h.drop i) = true := by
  rw [isPrefOf_iff]
  unfold occAt
  constructor
  · rintro ⟨hb, ht⟩
    exact ⟨by omega, ht⟩
  · rintro ⟨hi, ht⟩
    refine ⟨?_, ht⟩
    have := take_len_le ht
    simp only [List.length_drop] at this
    omega

instance occAt.inst (n h : Str) (i : ℕ) : Decidable (occAt n h i) := by
  unfold occAt; infer_instance

instance occurs.inst (n h : Str) : Decidable (occurs n h) :=
  decidable_of_iff (∃ i, i < h.length + 1 ∧ occAt n h i)
    (by
      constructor
      · rintro ⟨i, _, hi⟩; exact ⟨i, hi⟩
      · rintro ⟨i, hi⟩; exact ⟨i, by have := hi.1; omega, hi⟩)

lemma occAt_iff_append (n h : Str) (i : ℕ) :
    occAt n h i ↔ ∃ a b, h = a ++ n ++ b ∧ a.length = i := by
  constructor
  · rintro ⟨hb, ht⟩
    refine ⟨h.take i, h.drop (i + n.length), ?_, by simp only [List.length_take]; omega⟩
    conv_lhs => rw [← List.take_append_drop i h]
    have hdrop : h.drop i = n ++ h.drop (i + n.length) := by
      conv_lhs => rw [← List.take_append_drop n.length (h.drop i)]
      rw [ht, List.drop_drop]
    rw [hdrop, List.append_assoc]
  · rintro ⟨a, b, rfl, rfl⟩
    constructor
    · simp only [List.length_append]; omega
    · rw [List.append_assoc, List.drop_left, List.take_left]

lemma occAt_of_take {n h : Str} {m i : ℕ} (hocc : occAt n (h.take m) i) : occAt n h i := by
  rw [occAt_iff_append] at hocc ⊢
  obtain ⟨a, b, he, rfl⟩ := hocc
  exact ⟨a, b ++ h.drop m, by
    conv_lhs => rw [← List.take_append_drop m h]
    rw [he]; simp, rfl⟩

lemma occAt_of_drop {n h : Str} {m j : ℕ} (hm : m ≤ h.length)
    (hocc : occAt n (h.drop m) j) : occAt n h (m + j) := by
  rw [occAt_iff_append] at hocc ⊢
  obtain ⟨a, b, he, rfl⟩ := hocc
  refine ⟨h.take m ++ a, b, ?_, by simp [List.length_take]; omega⟩
  conv_lhs => rw [← List.take_append_drop m h]
  rw [he]; simp

lemma occAt_getElem? {n h : Str} {i : ℕ} (hocc : occAt n h i) :
    ∀ k, k < n.length → h[i + k]? = n[k]? := by
  rw [occAt_iff_append] at hocc
  obtain ⟨a, b, rfl, rfl⟩ := hocc
  intro k hk
  rw [List.append_assoc, List.getElem?_append_right (by omega),
    List.getElem?_append_left (by omega : a.length + k - a.length < n.length)]
  congr 1
  omega

lemma char_mem_of_occAt {n h : Str} {i k : ℕ} {c : Char} (hocc : occAt n h i)
    (hk : k < n.length) (hc : h[i + k]? = some c) : c ∈ n := by
  rw [occAt_getElem? hocc k hk] at hc
  obtain ⟨hlt, rfl⟩ := List.getElem?_eq_some.mp hc
  exact List.getElem_mem hlt

lemma occAt_nested {p1 p2 t : Str} {i j : ℕ} (h1 : occAt p1 t i) (h2 : occAt p2 t j)
    (hji : j ≤ i) (hle : i + p1.length ≤ j + p2.length) : occAt p1 p2 (i - j) := by
  rw [occAt_iff_append] at h2
  obtain ⟨a, b, rfl, rfl⟩ := h2
  obtain ⟨hb, ht⟩ := h1
  simp only [List.length_append] at hb hle
  refine ⟨by omega, ?_⟩
  rw [List.append_assoc, List.drop_append_eq_append_drop,
    List.drop_eq_nil_of_le (by omega : a.length ≤ i), List.nil_append,
    List.drop_append_eq_append_drop, List.take_append_eq_append_take] at ht
  have h0 : p1.length - ((p2.drop (i - a.length)).length) = 0 := by
    simp only [List.length_drop]; omega
  rw [h0, List.take_zero, List.append_nil] at ht
  exact ht

lemma occAt_append_left_of_le {L a x : Str} {i : ℕ} (h : occAt L (a ++ x) i)
    (hle : i + L.length ≤ a.length) : occAt L a i := by
  obtain ⟨hb, ht⟩ := h
  refine ⟨hle, ?_⟩
  rw [List.drop_append_eq_append_drop, List.take_append_eq_append_take] at ht
  have h0 : L.length - (a.drop i).length = 0 := by
    simp only [List.length_drop]; omega
  rw [h0, List.take_zero, List.append_nil] at ht
  exact ht

lemma occAt_append_right_of_ge {L x b : Str} {i : ℕ} (h : occAt L (x ++ b) i)
    (hge : x.length ≤ i) : occAt L b (i - x.length) := by
  obtain ⟨hb, ht⟩ := h
  simp only [List.length_append] at hb
  refine ⟨by omega, ?_⟩
  rw [List.drop_append_eq_append_drop, List.drop_eq_nil_of_le hge, List.nil_append] at ht
  exact ht

lemma occAt_append_of_left {L a : Str} {i : ℕ} (h : occAt L a i) (x : Str) :
    occAt L (a ++ x) i := by
  have hx : occAt L ((a ++ x).take a.length) i := by rwa [List.take_left]
  exact occAt_of_take hx

lemma occAt_append_of_right {L b : Str} {j : ℕ} (h : occAt L b j) (x : Str) :
    occAt L (x ++ b) (x.length + j) := by
  have hm : x.length ≤ (x ++ b).length := by
    simp only [List.length_append]; omega
  have hocc2 : occAt L ((x ++ b).drop x.length) j := by rwa [List.drop_left]
  exact occAt_of_drop hm hocc2

/-! ## Specification of `strFindFrom` (Python `str.find`) -/

lemma findFromAux_some {cs n : Str} {i p : ℕ} (h : findFromAux cs n i = some p) :
    ∃ k, p = i + k ∧ isPrefOf n (cs.drop k) = true ∧
      ∀ k' < k, isPrefOf n (cs.drop k') = false := by
  induction cs generalizing i with
  | nil =>
    simp only [findFromAux] at h
    split at h
    · rename_i hn
      cases h
      exact ⟨0, by omega, by subst hn; simp [isPrefOf],
        fun k' hk' => absurd hk' (by omega)⟩
    · cases h
  | cons c rest ih =>
    simp only [findFromAux] at h
    split at h
    · rename_i hpr
      cases h
      exact ⟨0, by omega, by simpa using hpr, fun k' hk' => absurd hk' (by omega)⟩
    · rename_i hpr
      obtain ⟨k, rfl, hpref, hmin⟩ := ih h
      refine ⟨k + 1, by omega, by simpa using hpref, ?_⟩
      intro k' hk'
      cases k' with
      | zero => simpa using hpr
      | succ k'' => simpa using hmin k'' (by omega)

lemma findFromAux_none {cs n : Str} {i : ℕ} (h : findFromAux cs n i = none) :
    ∀ k, isPrefOf n (cs.drop k) = false := by
  induction cs generalizing i with
  | nil =>
    simp only [findFromAux] at h
    split at h
    · cases h
    · rename_i hn
      intro k
      rw [List.drop_nil]
      cases n with
      | nil => exact absurd rfl hn
      | cons a as => simp [isPrefOf]
  | cons c rest ih =>
    simp only [findFromAux] at h
    split at h
    · cases h
    · rename_i hpr
      intro k
      cases k with
      | zero => simpa using hpr
      | succ k'' => simpa using ih h k''

lemma strFindFrom_some {t L : Str} {s p : ℕ} (h : strFindFrom t L s = some p) :
    s ≤ p ∧ occAt L t p ∧ ∀ j, s ≤ j → j < p → ¬ occAt L t j := by
  unfold strFindFrom at h
  split at h
  · rename_i hs
    obtain ⟨k, rfl, hpref, hmin⟩ := findFromAux_some h
    rw [List.drop_drop] at hpref
    have hbound : s + k ≤ t.length := by
      cases hL : L with
      | nil =>
        cases k with
        | zero => omega
        | succ k'' =>
          have := hmin 0 (by omega)
          rw [List.drop_zero, hL] at this
          cases hdr : t.drop s with
          | nil => simp [isPrefOf] at this
          | cons c cs => rw [hdr] at this; simp [isPrefOf] at this
      | cons a as =>
        rw [hL] at hpref
        have := take_len_le ((isPrefOf_iff _ _).mp hpref)
        simp only [List.length_drop, List.length_cons] at this
        omega
    refine ⟨by omega, (occAt_iff_isPrefOf _ _ _).mpr ⟨hbound, hpref⟩, ?_⟩
    intro j hsj hjp hocc
    have hj := ((occAt_iff_isPrefOf _ _ _).mp hocc).2
    have := hmin (j - s) (by omega)
    rw [List.drop_drop, show s + (j - s) = j by omega] at this
    rw [hj] at this
    cases this
  · cases h

lemma strFindFrom_none {t L : Str} {s : ℕ} (h : strFindFrom t L s = none) :
    ∀ j, s ≤ j → ¬ occAt L t j := by
  unfold strFindFrom at h
  split at h
  · rename_i hs
    intro j hsj hocc
    have hj := ((occAt_iff_isPrefOf _ _ _).mp hocc).2
    have := findFromAux_none h (j - s)
    rw [List.drop_drop, show s + (j - s) = j by omega] at this
    rw [hj] at this
    cases this
  · rename_i hs
    intro j hsj hocc
    have := hocc.1
    omega

lemma strFindFrom_at {t L : Str} {s : ℕ} (h : occAt L t s) :
    strFindFrom t L s = some s := by
  have hs : s ≤ t.length := by have := h.1; omega
  have hpref := ((occAt_iff_isPrefOf _ _ _).mp h).2
  unfold strFindFrom
  rw [if_pos hs]
  cases hdr : t.drop s with
  | nil =>
    rw [hdr] at hpref
    cases L with
    | nil => simp [findFromAux]
    | cons a as => simp [isPrefOf] at hpref
  | cons c rest =>
    rw [hdr] at hpref
    simp [findFromAux, hpref]

/-! ## The splice trichotomy: a brace-free string occurring in
`a ++ p ++ b`, where `p` is brace-wrapped, lies wholly in `a`, in `p`,
or in `b`. -/

lemma phWrapped.ne_nil {p : Str} (h : phWrapped p) : p ≠ [] := by
  rintro rfl
  simp [phWrapped] at h

lemma occAt_splice {L a p b : Str} {i : ℕ}
    (hbf : braceFree L) (hw : phWrapped p)
    (h : occAt L (a ++ p ++ b) i) :
    (i + L.length ≤ a.length ∧ occAt L a i) ∨
    (a.length ≤ i ∧ i + L.length ≤ a.length + p.length ∧ occAt L p (i - a.length)) ∨
    (a.length + p.length ≤ i ∧ occAt L b (i - (a.length + p.length))) := by
  have hpne : p ≠ [] := hw.ne_nil
  have hp1 : 1 ≤ p.length := List.length_pos.mpr hpne
  have hb := h.1
  simp only [List.length_append] at hb
  have hopen : (a ++ p ++ b)[a.length]? = some '{' := by
    rw [List.append_assoc, List.getElem?_append_right le_rfl, Nat.sub_self,
      List.getElem?_append_left (by omega), ← List.head?_eq_getElem?]
    exact hw.1
  have hclose : (a ++ p ++ b)[a.length + (p.length - 1)]? = some '}' := by
    rw [List.append_assoc, List.getElem?_append_right (by omega),
      show a.length + (p.length - 1) - a.length = p.length - 1 by omega,
      List.getElem?_append_left (by omega), ← List.getLast?_eq_getElem?]
    exact hw.2
  by_cases c1 : i + L.length ≤ a.length
  · exact Or.inl ⟨c1, occAt_append_left_of_le (by rwa [List.append_assoc] at h) c1⟩
  by_cases c3 : a.length + p.length ≤ i
  · refine Or.inr (Or.inr ⟨c3, ?_⟩)
    have := occAt_append_right_of_ge h (by simpa [List.length_append] using c3)
    simpa [List.length_append] using this
  by_cases c2 : a.length ≤ i ∧ i + L.length ≤ a.length + p.length
  · refine Or.inr (Or.inl ⟨c2.1, c2.2, ?_⟩)
    have hp : occAt p (a ++ p ++ b) a.length := by
      refine ⟨by simp only [List.length_append]; omega, ?_⟩
      rw [List.append_assoc, List.drop_left, List.take_left]
    exact occAt_nested h hp c2.1 (by omega)
  · exfalso
    by_cases hi : i < a.length
    · have hk : a.length - i < L.length := by omega
      have hmem : '{' ∈ L := char_mem_of_occAt h hk
        (by rw [show i + (a.length - i) = a.length by omega]; exact hopen)
      exact (hbf _ hmem).1 rfl
    · have hk : (a.length + (p.length - 1)) - i < L.length := by omega
      have hmem : '}' ∈ L := char_mem_of_occAt h hk
        (by rw [show i + ((a.length + (p.length - 1)) - i) = a.length + (p.length - 1) by omega]
            exact hclose)
      exact (hbf _ hmem).2 rfl

/-! ## Occurrence elimination through the substitution passes -/

lemma occurs_nil_of {L t : Str} (hL : L = []) : occurs L t := by
  subst hL
  exact ⟨0, by simp [occAt]⟩

lemma replaceAt_no_occ {L t ph : Str} {pos len : ℕ}
    (hbf : braceFree L) (hw : phWrapped ph) (hni : ¬ occurs L ph)
    (hno : ¬ occurs L t) : ¬ occurs L (replaceAt t pos len ph) := by
  rintro ⟨i, hi⟩
  unfold replaceAt at hi
  rcases occAt_splice hbf hw hi with ⟨_, h1⟩ | ⟨_, _, h2⟩ | ⟨_, h3⟩
  · exact hno ⟨i, occAt_of_take h1⟩
  · exact hni ⟨_, h2⟩
  · by_cases hlen : pos + len ≤ t.length
    · exact hno ⟨_, occAt_of_drop hlen h3⟩
    · have hdr : t.drop (pos + len) = [] := List.drop_eq_nil_of_le (by omega)
      rw [hdr] at h3
      have hb3 := h3.1
      simp only [List.length_nil] at hb3
      have : L = [] := List.length_eq_zero.mp (by omega)
      exact hno (occurs_nil_of this)

lemma passLoop_succ_none {L ph t : Str} {fuel start : ℕ}
    (h : strFindFrom t L start = none) :
    passLoop L ph (fuel + 1) t start = (t, []) := by
  simp [passLoop, h]

lemma passLoop_succ_some {L ph t : Str} {fuel start pos : ℕ}
    (h : strFindFrom t L start = some pos) :
    passLoop L ph (fuel + 1) t start =
      ((passLoop L ph fuel (replaceAt t pos L.length ph) (pos + ph.length)).1,
       (⟨ph, L, pos, sliceCtxBefore t pos, sliceCtxAfter t (pos + L.length)⟩ : RepRec) ::
         (passLoop L ph fuel (replaceAt t pos L.length ph) (pos + ph.length)).2) := by
  simp [passLoop, h]

lemma passLoop_no_occ_preserved {L L' ph' : Str} (hbf : braceFree L) (hw : phWrapped ph')
    (hni : ¬ occurs L ph') :
    ∀ fuel t start, ¬ occurs L t → ¬ occurs L (passLoop L' ph' fuel t start).1 := by
  intro fuel
  induction fuel with
  | zero => intro t start h; simpa [passLoop] using h
  | succ f ih =>
    intro t start h
    cases hf : strFindFrom t L' start with
    | none => rw [passLoop_succ_none hf]; exact h
    | some pos =>
      rw [passLoop_succ_some hf]
      exact ih _ _ (replaceAt_no_occ hbf hw hni h)

lemma passLoop_kills {L ph : Str} (hL : L ≠ []) (hbf : braceFree L) (hw : phWrapped ph)
    (hni : ¬ occurs L ph) :
    ∀ fuel t start, t.length + 1 ≤ fuel + start →
      (∀ i < start, ¬ occAt L t i) →
      ¬ occurs L (passLoop L ph fuel t start).1 := by
  have hL1 : 1 ≤ L.length := List.length_pos.mpr hL
  intro fuel
  induction fuel with
  | zero =>
    intro t start hfuel hinv
    simp only [passLoop]
    rintro ⟨i, hi⟩
    have hbd := hi.1
    exact hinv i (by omega) hi
  | succ f ih =>
    intro t start hfuel hinv
    cases hf : strFindFrom t L start with
    | none =>
      rw [passLoop_succ_none hf]
      rintro ⟨i, hi⟩
      by_cases his : i < start
      · exact hinv i his hi
      · exact strFindFrom_none hf i (by omega) hi
    | some pos =>
      rw [passLoop_succ_some hf]
      obtain ⟨hsp, hoccp, hmin⟩ := strFindFrom_some hf
      have hbd := hoccp.1
      have htk : (t.take pos).length = pos := by
        simp only [List.length_take]; omega
      refine ih (replaceAt t pos L.length ph) (pos + ph.length) ?_ ?_
      · unfold replaceAt
        simp only [List.length_append, List.length_take, List.length_drop]
        omega
      · intro i his hOcc
        unfold replaceAt at hOcc
        rcases occAt_splice hbf hw hOcc with ⟨hc1, h1⟩ | ⟨_, _, h2⟩ | ⟨hc3, _⟩
        · rw [htk] at hc1
          have hto := occAt_of_take h1
          by_cases hist : i < start
          · exact hinv i hist hto
          · exact hmin i (by omega) (by omega) hto
        · exact hni ⟨_, h2⟩
        · rw [htk] at hc3
          omega

lemma runPasses_no_occ_preserved {L : Str} (hbf : braceFree L) :
    ∀ ps t, (∀ q ∈ ps, phWrapped (Prod.snd q) ∧ ¬ occurs L (Prod.snd q)) →
      ¬ occurs L t → ¬ occurs L (runPasses ps t).1 := by
  intro ps
  induction ps with
  | nil => intro t _ h; simpa [runPasses] using h
  | cons q rest ih =>
    obtain ⟨L', ph'⟩ := q
    intro t hps h
    simp only [runPasses]
    exact ih _ (fun q hq => hps q (by simp [hq]))
      (passLoop_no_occ_preserved hbf (hps (L', ph') (by simp)).1
        (hps (L', ph') (by simp)).2 _ _ _ h)

lemma runPasses_kills {L phL : Str} (hL : L ≠ []) (hbf : braceFree L) :
    ∀ ps t, (L, phL) ∈ ps →
      (∀ q ∈ ps, phWrapped (Prod.snd q) ∧ ¬ occurs L (Prod.snd q)) →
      ¬ occurs L (runPasses ps t).1 := by
  intro ps
  induction ps with
  | nil => intro t hmem; cases hmem
  | cons q rest ih =>
    obtain ⟨L0, p0⟩ := q
    intro t hmem hps
    simp only [runPasses]
    rcases List.mem_cons.mp hmem with heq | hmem'
    · cases heq
      have hq := hps (L, phL) (by simp)
      have hkill := passLoop_kills hL hbf hq.1 hq.2 (t.length + 1) t 0 (by omega)
        (fun i hi => absurd hi (by omega))
      exact runPasses_no_occ_preserved hbf rest _
        (fun q hq' => hps q (by simp [hq'])) hkill
    · exact ih _ hmem' (fun q hq => hps q (by simp [hq]))

/-! ## Shape of generated placeholder tokens -/

lemma digitChar_not_brace {d : ℕ} (hd : d < 10) :
    digitChar d ≠ '{' ∧ digitChar d ≠ '}' := by
  interval_cases d <;> exact ⟨by decide, by decide⟩

lemma natDigitsAux_braceFree : ∀ fuel n, braceFree (natDigitsAux fuel n) := by
  intro fuel
  induction fuel with
  | zero => intro n c hc; simp [natDigitsAux] at hc
  | succ f ih =>
    intro n c hc
    simp only [natDigitsAux] at hc
    split at hc
    · rename_i h10
      simp only [List.mem_singleton] at hc
      subst hc
      exact digitChar_not_brace h10
    · rcases List.mem_append.mp hc with h | h
      · exact ih _ _ h
      · simp only [List.mem_singleton] at h
        subst h
        exact digitChar_not_brace (Nat.mod_lt _ (by omega))

lemma natDigits_braceFree (n : ℕ) : braceFree (natDigits n) :=
  natDigitsAux_braceFree _ _

lemma mkPlaceholder_shape {typ : Str} (h : braceFree typ) (n : ℕ) :
    phShapeBF (mkPlaceholder typ n) := by
  refine ⟨typ ++ '_' :: natDigits n, by simp [mkPlaceholder], ?_⟩
  intro c hc
  rcases List.mem_append.mp hc with h1 | h2
  · exact h c h1
  · rcases List.mem_cons.mp h2 with rfl | h3
    · exact ⟨by decide, by decide⟩
    · exact natDigits_braceFree n c h3

lemma phShapeBF_wrapped {p : Str} (h : phShapeBF p) : phWrapped p := by
  obtain ⟨body, rfl, _⟩ := h
  refine ⟨rfl, ?_⟩
  exact List.getLast?_concat _

lemma phShapeBF_occAt_eq {p1 p2 : Str} (h1 : phShapeBF p1) (h2 : phShapeBF p2)
    {k : ℕ} (hocc : occAt p1 p2 k) : p1 = p2 ∧ k = 0 := by
  obtain ⟨b1, rfl, hb1⟩ := h1
  obtain ⟨b2, rfl, hb2⟩ := h2
  have hlen := hocc.1
  simp only [List.length_cons, List.length_append, List.length_singleton] at hlen
  have hc0 : ('{' :: (b2 ++ ['}']))[k + 0]? = ('{' :: (b1 ++ ['}']))[0]? :=
    occAt_getElem? hocc 0 (by simp)
  simp only [Nat.add_zero, List.getElem?_cons_zero] at hc0
  have hk0 : k = 0 := by
    by_contra hk
    obtain ⟨k', rfl⟩ : ∃ k', k = k' + 1 := ⟨k - 1, by omega⟩
    rw [List.getElem?_cons_succ] at hc0
    have hk' : k' < b2.length := by omega
    rw [List.getElem?_append_left hk'] at hc0
    have hmem : '{' ∈ b2 := by
      obtain ⟨hlt, he⟩ := List.getElem?_eq_some.mp hc0
      exact he ▸ List.getElem_mem hlt
    exact (hb2 _ hmem).1 rfl
  subst hk0
  have hrhs : ('{' :: (b1 ++ ['}']))[b1.length + 1]? = some '}' := by
    rw [List.getElem?_cons_succ, List.getElem?_append_right le_rfl, Nat.sub_self]
    rfl
  have hlast : ('{' :: (b2 ++ ['}']))[0 + (b1.length + 1)]? =
      ('{' :: (b1 ++ ['}']))[b1.length + 1]? :=
    occAt_getElem? hocc (b1.length + 1) (by simp)
  rw [hrhs, Nat.zero_add, List.getElem?_cons_succ] at hlast
  have hblen : b1.length = b2.length := by
    by_contra hne
    have hlt : b1.length < b2.length := by omega
    rw [List.getElem?_append_left hlt] at hlast
    have hmem : '}' ∈ b2 := by
      obtain ⟨hlt2, he⟩ := List.getElem?_eq_some.mp hlast
      exact he ▸ List.getElem_mem hlt2
    exact (hb2 _ hmem).2 rfl
  obtain ⟨_, ht⟩ := hocc
  rw [List.drop_zero] at ht
  refine ⟨?_, rfl⟩
  have htake : List.take ('{' :: b1 ++ ['}']).length ('{' :: b2 ++ ['}']) =
      '{' :: b2 ++ ['}'] :=
    List.take_of_length_le (by
      simp only [List.length_cons, List.length_append, List.length_singleton]
      omega)
  exact ht.symm.trans htake

/-! ## Provenance of the assignment maps -/

lemma mem_insertOW {β : Type} {m : List (Str × β)} {k : Str} {v : β} {x : Str × β}
    (h : x ∈ insertOW m k v) : x ∈ m ∨ x = (k, v) := by
  induction m with
  | nil => simpa [insertOW] using h
  | cons kv rest ih =>
    obtain ⟨k', v'⟩ := kv
    simp only [insertOW] at h
    split at h
    · rename_i he
      rcases List.mem_cons.mp h with rfl | hm
      · right; rw [he]
      · left; exact List.mem_cons_of_mem _ hm
    · rcases List.mem_cons.mp h with rfl | hm
      · left; exact List.mem_cons_self _ _
      · rcases ih hm with h1 | h2
        · left; exact List.mem_cons_of_mem _ h1
        · right; exact h2

lemma mem_updateA {β : Type} {m : List (Str × β)} {k : Str} {f : β → β} {x : Str × β}
    (h : x ∈ updateA m k f) : x ∈ m ∨ ∃ v, (k, v) ∈ m ∧ x = (k, f v) := by
  induction m with
  | nil => simp [updateA] at h
  | cons kv rest ih =>
    obtain ⟨k', v'⟩ := kv
    simp only [updateA] at h
    split at h
    · rename_i he
      rcases List.mem_cons.mp h with rfl | hm
      · right; exact ⟨v', by rw [he]; exact List.mem_cons_self _ _, by rw [he]⟩
      · left; exact List.mem_cons_of_mem _ hm
    · rcases List.mem_cons.mp h with rfl | hm
      · left; exact List.mem_cons_self _ _
      · rcases ih hm with h1 | ⟨v, hv, he⟩
        · left; exact List.mem_cons_of_mem _ h1
        · right; exact ⟨v, List.mem_cons_of_mem _ hv, he⟩

lemma lookupA_mem {β : Type} {m : List (Str × β)} {k : Str} {v : β}
    (h : lookupA m k = some v) : (k, v) ∈ m := by
  induction m with
  | nil => simp [lookupA] at h
  | cons kv rest ih =>
    obtain ⟨k', v'⟩ := kv
    simp only [lookupA] at h
    split at h
    · rename_i he
      cases h
      subst he
      exact List.mem_cons_self _ _
    · exact List.mem_cons_of_mem _ (ih h)

lemma groupStep_type_sub {S : List Str} {acc : List (Str × GroupInfo)} {e : Entity}
    (hacc : ∀ g ∈ acc, (Prod.snd g).type ∈ S) (he : e.type ∈ S) :
    ∀ g ∈ groupStep acc e, (Prod.snd g).type ∈ S := by
  intro g hg
  simp only [groupStep] at hg
  split at hg
  · exact hacc g hg
  · have haccX : ∀ (k : Str) (g' : Str × GroupInfo),
        g' ∈ (if containsKeyA acc k = true then acc
          else acc ++ [(k, ({ type := e.type, texts := [], aliases := [] } : GroupInfo))]) →
        (Prod.snd g').type ∈ S := by
      intro k g' hg'
      split at hg'
      · exact hacc g' hg'
      · rcases List.mem_append.mp hg' with ha | hb
        · exact hacc g' ha
        · simp only [List.mem_singleton] at hb
          subst hb
          exact he
    rcases mem_updateA hg with h1 | ⟨v, hv, heq⟩
    · exact haccX _ g h1
    · subst heq
      have hvS := haccX _ _ hv
      exact hvS

lemma aliasStep_type_sub {S : List Str} {acc : List (Str × GroupInfo)} {ag : AliasGroup}
    (hacc : ∀ g ∈ acc, (Prod.snd g).type ∈ S) :
    ∀ g ∈ aliasStep acc ag, (Prod.snd g).type ∈ S := by
  intro g hg
  unfold aliasStep at hg
  split at hg
  · rcases mem_updateA hg with h1 | ⟨v, hv, heq⟩
    · exact hacc g h1
    · subst heq
      have hvS := hacc _ hv
      exact hvS
  · exact hacc g hg

lemma buildGroups_type_sub {es : List Entity} :
    ∀ g ∈ addPass1Aliases (buildGroups es) p1, (Prod.snd g).type ∈ es.map Entity.type := by
  intro g hg
  unfold addPass1Aliases at hg
  have hga : ∀ g ∈ buildGroups es, (Prod.snd g).type ∈ es.map Entity.type := by
    unfold buildGroups
    have main : ∀ (l : List Entity) (acc : List (Str × GroupInfo)) (S : List Str),
        (∀ g ∈ acc, (Prod.snd g).type ∈ S) → (∀ e ∈ l, e.type ∈ S) →
        ∀ g ∈ l.foldl groupStep acc, (Prod.snd g).type ∈ S := by
      intro l
      induction l with
      | nil => intro acc S hacc _ g hg; exact hacc g hg
      | cons e rest ih =>
        intro acc S hacc hl g hg
        exact ih _ _ (groupStep_type_sub hacc (hl e (by simp))) (fun e' he' => hl e' (by simp [he'])) g hg
    exact main es [] _ (by simp) (fun e he => List.mem_map_of_mem _ he)
  have main2 : ∀ (l : List AliasGroup) (acc : List (Str × GroupInfo)),
      (∀ g ∈ acc, (Prod.snd g).type ∈ es.map Entity.type) →
      ∀ g ∈ l.foldl aliasStep acc, (Prod.snd g).type ∈ es.map Entity.type := by
    intro l
    induction l with
    | nil => intro acc hacc g hg; exact hacc g hg
    | cons ag rest ih =>
      intro acc hacc g hg
      exact ih _ (aliasStep_type_sub hacc) g hg
  exact main2 _ _ hga g hg

lemma assign_fold_inv {P : Str → Prop} :
    ∀ (l : List (Str × GroupInfo)) (st : AssignState),
      (∀ g ∈ l, ∀ n : ℕ, P (mkPlaceholder (pyUpper (Prod.snd g).type) n)) →
      (∀ x ∈ st.phMap, P (Prod.fst x)) → (∀ x ∈ st.flat, P (Prod.snd x)) →
      (∀ x ∈ (l.foldl assignStep st).phMap, P (Prod.fst x)) ∧
      (∀ x ∈ (l.foldl assignStep st).flat, P (Prod.snd x)) := by
  intro l
  induction l with
  | nil => intro st _ h1 h2; exact ⟨h1, h2⟩
  | cons g rest ih =>
    intro st hl h1 h2
    refine ih _ (fun g' hg' n => hl g' (by simp [hg']) n) ?_ ?_
    · intro y hy
      simp only [assignStep] at hy
      rcases mem_insertOW hy with hm | he
      · exact h1 y hm
      · subst he
        exact hl g (by simp) _
    · intro y hy
      simp only [assignStep] at hy
      have hflat : ∀ (ts : List Str) (m : List (Str × Str)) (ph : Str), P ph →
          (∀ x ∈ m, P (Prod.snd x)) →
          ∀ x ∈ ts.foldl (fun m t => insertOW m t ph) m, P (Prod.snd x) := by
        intro ts
        induction ts with
        | nil => intro m ph _ hm x hx; exact hm x hx
        | cons t ts' ih' =>
          intro m ph hP hm x hx
          refine ih' _ _ hP ?_ x hx
          intro y' hy'
          rcases mem_insertOW hy' with hm' | he'
          · exact hm y' hm'
          · subst he'
            exact hP
      exact hflat _ _ _ (hl g (by simp) _) h2 y hy

lemma mem_insByDesc {α : Type} {wt : α → ℕ} {x y : α} {l : List α} :
    y ∈ insByDesc wt x l ↔ y = x ∨ y ∈ l := by
  induction l with
  | nil => simp [insByDesc]
  | cons z zs ih =>
    simp only [insByDesc]
    split
    · simp [or_comm, or_assoc, or_left_comm]
    · simp only [List.mem_cons, ih]
      tauto

lemma mem_sortByDesc {α : Type} {wt : α → ℕ} {x : α} {l : List α} :
    x ∈ sortByDesc wt l ↔ x ∈ l := by
  induction l with
  | nil => simp [sortByDesc]
  | cons z zs ih =>
    simp only [sortByDesc, List.foldr_cons] at *
    rw [mem_insByDesc, ih, List.mem_cons]

lemma lookupA_isSome_of_mem_keys {β : Type} {m : List (Str × β)} {k : Str}
    (h : k ∈ m.map Prod.fst) : ∃ v, lookupA m k = some v := by
  induction m with
  | nil => simp at h
  | cons kv rest ih =>
    obtain ⟨k', v'⟩ := kv
    simp only [List.map_cons, List.mem_cons] at h
    simp only [lookupA]
    by_cases he : k' = k
    · exact ⟨v', by rw [if_pos he]⟩
    · rcases h with rfl | h2
      · exact absurd rfl he
      · rw [if_neg he]
        exact ih h2

lemma mem_of_occurs {L p : Str} (h : occurs L p) : ∀ c ∈ L, c ∈ p := by
  obtain ⟨i, hi⟩ := h
  rw [occAt_iff_append] at hi
  obtain ⟨a, b, rfl, _⟩ := hi
  intro c hc
  simp [List.mem_append, hc]

lemma natDigitsAux_digits : ∀ fuel n c, c ∈ natDigitsAux fuel n → isDigit09 c = true := by
  intro fuel
  induction fuel with
  | zero => intro n c hc; simp [natDigitsAux] at hc
  | succ f ih =>
    intro n c hc
    simp only [natDigitsAux] at hc
    split at hc
    · rename_i h10
      simp only [List.mem_singleton] at hc
      subst hc
      interval_cases n <;> decide
    · rcases List.mem_append.mp hc with h | h
      · exact ih _ _ h
      · simp only [List.mem_singleton] at h
        subst h
        have hm : n % 10 < 10 := Nat.mod_lt _ (by omega)
        interval_cases hmm : (n % 10) <;> decide

lemma natDigits_digits {n : ℕ} {c : Char} (h : c ∈ natDigits n) : isDigit09 c = true :=
  natDigitsAux_digits _ _ _ h

lemma mkPlaceholder_chars {typ : Str} {n : ℕ} {c : Char} (h : c ∈ mkPlaceholder typ n) :
    c = '{' ∨ c ∈ typ ∨ c = '_' ∨ isDigit09 c = true ∨ c = '}' := by
  simp only [mkPlaceholder, List.mem_cons, List.mem_append, List.mem_singleton] at h
  rcases h with h | (h | h | h) | h
  · exact Or.inl h
  · exact Or.inr (Or.inl h)
  · exact Or.inr (Or.inr (Or.inl h))
  · exact Or.inr (Or.inr (Or.inr (Or.inl (natDigits_digits h))))
  · rcases h with h | h
    · exact Or.inr (Or.inr (Or.inr (Or.inr h)))
    · cases h

/-- Claim theorem C5 (amended), stated over `execute_replacement`:

(a) provided every entity type uppercases to a brace-free string, no two
placeholder-token occurrences in the anonymized text have (properly or
improperly) nested spans unless they are the same token at the same
offset; and

(b) a nonempty brace-free literal of the literal-to-placeholder map that
does not occur inside any generated placeholder token is absent from the
anonymized text. -/
theorem C5_nonoverlap_amended (text : Str) (es : List Entity) (p1 : Pass1Result) (fn : Str)
    (hty : ∀ ty ∈ es.map Entity.type, braceFree (pyUpper ty)) :
    (∀ q1 ∈ (execute_replacement text es p1 fn).2.mappings.map Prod.fst,
     ∀ q2 ∈ (execute_replacement text es p1 fn).2.mappings.map Prod.fst,
     ∀ i j, occAt q1 (execute_replacement text es p1 fn).1 i →
       occAt q2 (execute_replacement text es p1 fn).1 j →
       j ≤ i → i + q1.length ≤ j + q2.length → q1 = q2 ∧ i = j) ∧
    (∀ L ∈ (assignAll (addPass1Aliases (buildGroups es) p1)).flat.map Prod.fst,
      L ≠ [] → braceFree L →
      (∀ ty ∈ es.map Entity.type, ∀ n : ℕ, ¬ occurs L (mkPlaceholder (pyUpper ty) n)) →
      ¬ occurs L (execute_replacement text es p1 fn).1) := by
  have hstepShape : ∀ g ∈ addPass1Aliases (buildGroups es) p1, ∀ n : ℕ,
      phShapeBF (mkPlaceholder (pyUpper (Prod.snd g).type) n) := by
    intro g hg n
    exact mkPlaceholder_shape (hty _ (buildGroups_type_sub g hg)) n
  have hmapsEq : (execute_replacement text es p1 fn).2.mappings =
      (assignAll (addPass1Aliases (buildGroups es) p1)).phMap := rfl
  have houtEq : (execute_replacement text es p1 fn).1 =
      (runPasses (literalPairs (assignAll (addPass1Aliases (buildGroups es) p1)).flat)
        text).1 := rfl
  constructor
  · intro q1 hq1 q2 hq2 i j h1 h2 hji hle
    rw [hmapsEq] at hq1 hq2
    have hshape : ∀ q ∈ (assignAll (addPass1Aliases (buildGroups es) p1)).phMap.map Prod.fst,
        phShapeBF q := by
      intro q hq
      obtain ⟨x, hx, rfl⟩ := List.mem_map.mp hq
      exact (assign_fold_inv _ _ hstepShape (by simp) (by simp)).1 x hx
    have hnest := occAt_nested h1 h2 hji hle
    obtain ⟨heq, hk⟩ := phShapeBF_occAt_eq (hshape q1 hq1) (hshape q2 hq2) hnest
    exact ⟨heq, by omega⟩
  · intro L hL hne hbf hni
    set flat := (assignAll (addPass1Aliases (buildGroups es) p1)).flat with hflat
    have hval : ∀ x ∈ flat, phShapeBF (Prod.snd x) ∧ ¬ occurs L (Prod.snd x) := by
      intro x hx
      refine (@assign_fold_inv
        (fun v => phShapeBF v ∧ ¬ occurs L v) _ _ ?_ (by simp) (by simp)).2 x hx
      intro g hg n
      exact ⟨hstepShape g hg n, hni _ (buildGroups_type_sub g hg) n⟩
    rw [houtEq]
    have hphL : (L, (lookupA flat L).getD []) ∈ literalPairs flat := by
      unfold literalPairs
      exact List.mem_map.mpr ⟨L, by
        unfold sortedLiterals
        exact mem_sortByDesc.mpr hL, rfl⟩
    refine runPasses_kills hne hbf _ text hphL ?_
    intro q hq
    obtain ⟨L', hL', rfl⟩ := List.mem_map.mp hq
    have hL'' : L' ∈ flat.map Prod.fst := by
      unfold sortedLiterals at hL'
      exact mem_sortByDesc.mp hL'
    obtain ⟨v, hv⟩ := lookupA_isSome_of_mem_keys hL''
    have hvm := lookupA_mem hv
    have hp := hval _ hvm
    rw [hv]
    exact ⟨phShapeBF_wrapped hp.1, hp.2⟩

/-- Counterexample to claim C5 as frozen: with the single entity text
`COMPANY` of type `company`, the literal `COMPANY` is a key of the
literal-to-placeholder map yet still occurs verbatim in the anonymized
text (inside its own placeholder `{COMPANY_1}`). -/
theorem C5_counterexample :
    ("COMPANY".toList ∈
       (assignAll (addPass1Aliases (buildGroups entsCo1) ⟨[]⟩)).flat.map Prod.fst) ∧
    occurs ("COMPANY".toList) (execute_replacement dCo1 entsCo1 ⟨[]⟩ []).1 := by
  constructor
  · decide
  · exact ⟨5, by decide⟩

/-- Witness for C5: the amended theorem applied to the concrete input
`"Hi John Smith!"` with entity `John Smith` of type `person`; all
hypotheses are discharged at this input. -/
theorem C5_witness :
    ¬ occurs ("John Smith".toList) (execute_replacement dW entsW ⟨[]⟩ []).1 := by
  refine (C5_nonoverlap_amended dW entsW ⟨[]⟩ [] (by decide)).2
    ("John Smith".toList) (by decide) (by decide) (by decide) ?_
  intro ty hty n hocc
  have hty' : ty = "person".toList := by
    simpa [entsW] using hty
  subst hty'
  have hsp : ' ' ∈ ("John Smith".toList) := by decide
  have hmem := mem_of_occurs hocc ' ' hsp
  rcases mkPlaceholder_chars hmem with h | h | h | h | h
  · exact absurd h (by decide)
  · revert h; decide
  · exact absurd h (by decide)
  · exact absurd h (by decide)
  · exact absurd h (by decide)

/-! ## Same-pass cursor discipline -/

lemma passLoop_positions {L ph : Str} :
    ∀ (fuel : ℕ) (t : Str) (start : ℕ),
      (∀ r ∈ (passLoop L ph fuel t start).2, start ≤ r.position) ∧
      List.Chain' (fun a b : RepRec => a.position + ph.length ≤ b.position)
        (passLoop L ph fuel t start).2 := by
  intro fuel
  induction fuel with
  | zero => intro t start; simp [passLoop]
  | succ f ih =>
    intro t start
    cases hf : strFindFrom t L start with
    | none => rw [passLoop_succ_none hf]; simp
    | some pos =>
      rw [passLoop_succ_some hf]
      obtain ⟨hsp, _, _⟩ := strFindFrom_some hf
      obtain ⟨ihpos, ihchain⟩ := ih (replaceAt t pos L.length ph) (pos + ph.length)
      constructor
      · intro r hr
        rcases List.mem_cons.mp hr with rfl | hm
        · exact hsp
        · have := ihpos r hm
          omega
      · rw [List.chain'_cons']
        refine ⟨?_, ihchain⟩
        intro b hb
        have hbm : b ∈ (passLoop L ph f (replaceAt t pos L.length ph) (pos + ph.length)).2 :=
          List.mem_of_mem_head? hb
        exact ihpos b hbm

/-- Claim theorem C6 (amended): in the substitution loop of one literal,
(1) after each hit at `pos` the scan resumes exactly at
`pos + len(placeholder)` — the text just rewritten is spliced, the record
is prepended, and the recursive call starts immediately after the
inserted placeholder; (2) hence every record of one pass lies at or after
the pass's start cursor, and consecutive records of one pass are
separated by at least the placeholder length, so insertions of the same
pass are never re-scanned by that pass; (3) an occurrence of the literal
sitting immediately at the cursor is still found (adjacent occurrences
are not skipped).  Placeholders inserted by earlier passes can, however,
be matched inside by a later literal's pass (see the counterexample). -/
theorem C6_cursor_amended (L ph : Str) :
    (∀ (t : Str) (fuel start pos : ℕ), strFindFrom t L start = some pos →
      passLoop L ph (fuel + 1) t start =
        ((passLoop L ph fuel (replaceAt t pos L.length ph) (pos + ph.length)).1,
         (⟨ph, L, pos, sliceCtxBefore t pos, sliceCtxAfter t (pos + L.length)⟩ : RepRec) ::
           (passLoop L ph fuel (replaceAt t pos L.length ph) (pos + ph.length)).2)) ∧
    (∀ (fuel : ℕ) (t : Str) (start : ℕ),
      (∀ r ∈ (passLoop L ph fuel t start).2, start ≤ r.position) ∧
      List.Chain' (fun a b : RepRec => a.position + ph.length ≤ b.position)
        (passLoop L ph fuel t start).2) ∧
    (∀ (t : Str) (start : ℕ), occAt L t start → strFindFrom t L start = some start) := by
  refine ⟨?_, passLoop_positions, ?_⟩
  · intro t fuel start pos h
    exact passLoop_succ_some h
  · intro t start h
    exact strFindFrom_at h

/-- Counterexample to claim C6 as frozen: with entities `Acme Corp` and
`COMPANY` (both type `company`) over the document `Acme Corp`, the first
pass inserts `{COMPANY_1}` spanning offsets 0-10, and the later, shorter
literal `COMPANY` is then matched *inside* that placeholder (the second
log record sits at position 1), destroying it: the placeholder no longer
occurs in the final text `{{COMPANY_2}_1}`. -/
theorem C6_counterexample :
    ((execute_replacement dCo2 entsCo2 ⟨[]⟩ []).2.replacement_log.map
        (fun r => (r.placeholder, r.original_text, r.position)) =
      [(("{COMPANY_1}").toList, ("Acme Corp").toList, 0),
       (("{COMPANY_2}").toList, ("COMPANY").toList, 1)]) ∧
    (execute_replacement dCo2 entsCo2 ⟨[]⟩ []).1 = ("{{COMPANY_2}_1}").toList ∧
    ¬ occurs (("{COMPANY_1}").toList) (execute_replacement dCo2 entsCo2 ⟨[]⟩ []).1 := by
  refine ⟨by decide, by decide, by decide⟩

/-- Witness for C6: the amended theorem applied at a concrete pass —
literal `ab`, placeholder `{X_1}`, text `abab` — discharging the `find`
hypotheses of parts (1) and (3) there. -/
theorem C6_witness :
    (passLoop (("ab").toList) (("{X_1}").toList) (2 + 1) (("abab").toList) 0 =
      ((passLoop (("ab").toList) (("{X_1}").toList) 2
          (replaceAt (("abab").toList) 0 (("ab").toList).length (("{X_1}").toList))
          (0 + (("{X_1}").toList).length)).1,
       (⟨("{X_1}").toList, ("ab").toList, 0, sliceCtxBefore (("abab").toList) 0,
          sliceCtxAfter (("abab").toList) (0 + (("ab").toList).length)⟩ : RepRec) ::
         (passLoop (("ab").toList) (("{X_1}").toList) 2
            (replaceAt (("abab").toList) 0 (("ab").toList).length (("{X_1}").toList))
            (0 + (("{X_1}").toList).length)).2)) ∧
    strFindFrom (("abab").toList) (("ab").toList) 2 = some 2 := by
  constructor
  · exact (C6_cursor_amended (("ab").toList) (("{X_1}").toList)).1 _ 2 0 0 (by decide)
  · exact (C6_cursor_amended (("ab").toList) (("{X_1}").toList)).2.2 _ 2 (by decide)

/-! ## Step A processing order and window bound -/

lemma pairwise_insByDesc {α : Type} {wt : α → ℕ} {x : α} {l : List α}
    (h : List.Pairwise (fun a b => wt b ≤ wt a) l) :
    List.Pairwise (fun a b => wt b ≤ wt a) (insByDesc wt x l) := by
  induction l with
  | nil => simp [insByDesc]
  | cons y ys ih =>
    simp only [insByDesc]
    split
    · rename_i hle
      constructor
      · intro b hb
        rcases List.mem_cons.mp hb with rfl | hm
        · exact hle
        · have := (List.pairwise_cons.mp h).1 b hm
          omega
      · exact h
    · rename_i hgt
      rw [List.pairwise_cons] at h ⊢
      refine ⟨?_, ih h.2⟩
      intro b hb
      rcases mem_insByDesc.mp hb with rfl | hm
      · omega
      · exact h.1 b hm

lemma pairwise_sortByDesc {α : Type} (wt : α → ℕ) (l : List α) :
    List.Pairwise (fun a b => wt b ≤ wt a) (sortByDesc wt l) := by
  induction l with
  | nil => simp [sortByDesc]
  | cons x xs ih =>
    simp only [sortByDesc, List.foldr_cons] at *
    exact pairwise_insByDesc ih

lemma posStep_eq (t : Str) (e : RepRec) :
    posStep t e =
      match strFindFrom ((t.drop (e.position - 50)).take
          (min t.length (e.position + e.placeholder.length + 50) - (e.position - 50)))
          e.placeholder 0 with
      | some lp => (replaceAt t (e.position - 50 + lp) e.placeholder.length e.original_text,
          some (e.position - 50 + lp))
      | none => (t, none) := rfl

lemma posStep_bound {t : Str} {e : RepRec} {t' : Str} {a : ℕ}
    (h : posStep t e = (t', some a)) :
    e.position - 50 ≤ a ∧ a ≤ e.position + 50 := by
  rw [posStep_eq] at h
  split at h
  · rename_i lp hf
    have hsnd := congrArg Prod.snd h
    simp only at hsnd
    injection hsnd with ha
    obtain ⟨_, hocc, _⟩ := strFindFrom_some hf
    have hb := hocc.1
    simp only [List.length_take, List.length_drop] at hb
    omega
  · rename_i hf
    have hsnd := congrArg Prod.snd h
    simp at hsnd

lemma posGo_nil (t : Str) : posGo [] t = (t, 0, 0, []) := rfl

lemma posGo_cons (e : RepRec) (rest : List RepRec) (t : Str) :
    posGo (e :: rest) t =
      match (posStep t e).2 with
      | some a => ((posGo rest (posStep t e).1).1, (posGo rest (posStep t e).1).2.1 + 1,
          (posGo rest (posStep t e).1).2.2.1,
          (e.position, some a) :: (posGo rest (posStep t e).1).2.2.2)
      | none => ((posGo rest (posStep t e).1).1, (posGo rest (posStep t e).1).2.1,
          (posGo rest (posStep t e).1).2.2.1 + 1,
          (e.position, none) :: (posGo rest (posStep t e).1).2.2.2) := rfl

lemma posGo_trace_bound :
    ∀ (l : List RepRec) (t : Str),
      ∀ pr ∈ (posGo l t).2.2.2, ∀ a, pr.2 = some a →
        pr.1 - 50 ≤ a ∧ a ≤ pr.1 + 50 := by
  intro l
  induction l with
  | nil => intro t pr hpr; rw [posGo_nil] at hpr; simp at hpr
  | cons e rest ih =>
    intro t pr hpr a ha
    rw [posGo_cons] at hpr
    split at hpr
    · rename_i a' hstep
      rcases List.mem_cons.mp hpr with rfl | hm
      · injection ha with ha'
        subst ha'
        have hps : posStep t e = ((posStep t e).1, some a') := by rw [← hstep]
        exact posStep_bound hps
      · exact ih _ pr hm a ha
    · rename_i hstep
      rcases List.mem_cons.mp hpr with rfl | hm
      · cases ha
      · exact ih _ pr hm a ha

/-- Claim theorem C3 (amended): `restore_by_position` processes the log
sorted by recorded position in descending (not necessarily strict) order,
and every replacement it actually performs lands within the search
window: at or after `position - 50` and at or before `position + 50` of
the record being processed — not necessarily at or after the recorded
position itself (see the counterexample), so replacements before a
record's own position, and hence offset shifts of not-yet-processed
records, are possible within that 50-character margin. -/
theorem C3_stepA_order_amended (t : Str) (log : List RepRec) :
    (restore_by_position t log).1 =
      (posGo (sortByDesc (fun e => e.position) log) t).1 ∧
    List.Pairwise (fun a b : RepRec => b.position ≤ a.position)
      (sortByDesc (fun e => e.position) log) ∧
    (∀ pr ∈ posTrace t log, ∀ a, pr.2 = some a →
      pr.1 - 50 ≤ a ∧ a ≤ pr.1 + 50) := by
  refine ⟨rfl, pairwise_sortByDesc _ _, ?_⟩
  intro pr hpr a ha
  exact posGo_trace_bound _ _ pr hpr a ha

/-- Counterexample to claim C3 as frozen: on the anonymized output of the
alias document `John Smith and J.S.`, Step A's first processed record
(recorded position 15) performs its replacement at offset 0 — strictly
before the record's position — because the length-50 window search finds
the other `{PERSON_1}` occurrence first. -/
theorem C3_counterexample :
    ∃ pr ∈ posTrace (execute_replacement dAl entsAl ⟨[]⟩ []).1
        (execute_replacement dAl entsAl ⟨[]⟩ []).2.replacement_log,
      ∃ a, pr.2 = some a ∧ a < pr.1 := by
  refine ⟨(15, some 0), by decide, 0, rfl, by decide⟩

/-- Witness for C3: the amended window bound applied to the concrete
trace entry `(15, some 0)` of the alias run. -/
theorem C3_witness : (15 : ℕ) - 50 ≤ 0 ∧ (0 : ℕ) ≤ 15 + 50 :=
  (C3_stepA_order_amended (execute_replacement dAl entsAl ⟨[]⟩ []).1
    (execute_replacement dAl entsAl ⟨[]⟩ []).2.replacement_log).2.2
    (15, some 0) (by decide) 0 rfl

/-! ## Pipeline unfolding equations for `run_deanonymize` -/

lemma restore_by_context_eq (sim : SimFun) (t : Str) (log : List RepRec) :
    restore_by_context sim t log =
      if findTokens t = [] then (t, 0)
      else contextGo sim log (findTokens t).reverse t := rfl

lemma restore_by_context_nil {sim : SimFun} {t : Str} {log : List RepRec}
    (h : findTokens t = []) : restore_by_context sim t log = (t, 0) := by
  rw [restore_by_context_eq, h]
  rfl

lemma restore_by_canonical_eq (t : Str) (m : List (Str × PhInfo)) :
    restore_by_canonical t m = canonGo m (findTokens t).reverse t := rfl

lemma restore_by_canonical_nil {t : Str} {m : List (Str × PhInfo)}
    (h : findTokens t = []) : restore_by_canonical t m = (t, 0) := by
  rw [restore_by_canonical_eq, h]
  rfl

lemma run_deanonymize_eq (sim : SimFun) (t : Str) (mp : MappingDict) :
    run_deanonymize sim t mp =
      ((restore_by_canonical
          (restore_by_context sim (restore_by_position t mp.replacement_log).1
            mp.replacement_log).1 mp.mappings).1,
       ⟨(restore_by_position t mp.replacement_log).2.1,
        (restore_by_context sim (restore_by_position t mp.replacement_log).1
          mp.replacement_log).2,
        (restore_by_canonical
          (restore_by_context sim (restore_by_position t mp.replacement_log).1
            mp.replacement_log).1 mp.mappings).2,
        (findTokens (restore_by_canonical
          (restore_by_context sim (restore_by_position t mp.replacement_log).1
            mp.replacement_log).1 mp.mappings).1).length,
        mp.replacement_log.length⟩) := rfl

/-- Claim theorem C1 (amended): the round trip holds on the spec's §8
scenario — document `John Smith signed. Contact: John Smith at
john@x.com.` with entities `John Smith`/person and `john@x.com`/email —
for every similarity oracle: `run_deanonymize` applied unedited to the
output of `execute_replacement` returns the document exactly, with
`position_matched = 3 = total_in_log` and `remaining_placeholders = 0`.
(The unrestricted round-trip text equality of the frozen claim is false;
see the counterexample.) -/
theorem C1_roundtrip_scenario_amended : ∀ sim : SimFun,
    (run_deanonymize sim (execute_replacement dSc entsSc ⟨[]⟩ []).1
      (execute_replacement dSc entsSc ⟨[]⟩ []).2).1 = dSc ∧
    (run_deanonymize sim (execute_replacement dSc entsSc ⟨[]⟩ []).1
      (execute_replacement dSc entsSc ⟨[]⟩ []).2).2 =
      ⟨3, 0, 0, 0, 3⟩ := by
  intro sim
  have hA1 : (restore_by_position (execute_replacement dSc entsSc ⟨[]⟩ []).1
      (execute_replacement dSc entsSc ⟨[]⟩ []).2.replacement_log).1 = dSc := by decide
  have hA2 : (restore_by_position (execute_replacement dSc entsSc ⟨[]⟩ []).1
      (execute_replacement dSc entsSc ⟨[]⟩ []).2.replacement_log).2.1 = 3 := by decide
  have hT : findTokens dSc = [] := by decide
  have hlen : (execute_replacement dSc entsSc ⟨[]⟩ []).2.replacement_log.length = 3 := by
    decide
  rw [run_deanonymize_eq, hA1, restore_by_context_nil hT]
  rw [show ((dSc, 0) : Str × ℕ).1 = dSc from rfl, restore_by_canonical_nil hT]
  rw [show ((dSc, 0) : Str × ℕ).1 = dSc from rfl]
  rw [hA2, hT, hlen]
  exact ⟨rfl, rfl⟩

/-- Counterexample to claim C1 as frozen: for the document
`John Smith and J.S.` with the alias `J.S.` linked to `John Smith`, the
unedited round trip returns `J.S. and John Smith` — not the original —
even though every placeholder was position-matched
(`position_matched = 2 = total_in_log`, `remaining_placeholders = 0`):
Step A's window search pairs the two same-id placeholders with the wrong
records. -/
theorem C1_counterexample :
    (run_deanonymize simZero (execute_replacement dAl entsAl ⟨[]⟩ []).1
      (execute_replacement dAl entsAl ⟨[]⟩ []).2).1 ≠ dAl ∧
    (run_deanonymize simZero (execute_replacement dAl entsAl ⟨[]⟩ []).1
      (execute_replacement dAl entsAl ⟨[]⟩ []).2).2 = ⟨2, 0, 0, 0, 2⟩ := by
  exact ⟨by decide, by decide⟩

/-! ## Stability of the longest-first sort -/

lemma filter_insByDesc {α : Type} {wt : α → ℕ} (x : α) (l : List α) (d : ℕ) :
    (insByDesc wt x l).filter (fun a => wt a == d) =
      if wt x == d then x :: l.filter (fun a => wt a == d)
      else l.filter (fun a => wt a == d) := by
  induction l with
  | nil =>
    rcases hx : (wt x == d) with _ | _ <;>
      simp [insByDesc, List.filter_cons, hx]
  | cons y ys ih =>
    simp only [insByDesc]
    split
    · simp only [List.filter_cons]
    · rename_i hgt
      simp only [List.filter_cons, ih]
      rcases hx : (wt x == d) with _ | _ <;> rcases hy : (wt y == d) with _ | _ <;>
        simp [hx, hy]
      all_goals
        have h1 : wt x = d := by simpa using hx
      all_goals
        have h2 : wt y = d := by simpa using hy
      all_goals omega

lemma filter_sortByDesc {α : Type} (wt : α → ℕ) (l : List α) (d : ℕ) :
    (sortByDesc wt l).filter (fun a => wt a == d) = l.filter (fun a => wt a == d) := by
  induction l with
  | nil => rfl
  | cons x xs ih =>
    simp only [sortByDesc, List.foldr_cons] at *
    rw [filter_insByDesc, List.filter_cons]
    rcases hx : (wt x == d) with _ | _ <;> simp only [if_true, if_false, ih]

/-- Claim theorem C2: `execute_replacement` is a pure function, so two
invocations on identical inputs give identical placeholder ids, logs and
text; moreover the literal ordering it substitutes in is the stable
longest-first sort of the flat map's key order: literals of equal length
keep their original (insertion) relative order — for every length `d`,
filtering the sorted literals to length `d` returns exactly the length-`d`
keys in insertion order — while lengths are globally non-increasing. -/
theorem C2_determinism (t : Str) (es : List Entity) (p1 : Pass1Result) (fn : Str) :
    execute_replacement t es p1 fn = execute_replacement t es p1 fn ∧
    (∀ d : ℕ,
      (sortedLiterals (assignAll (addPass1Aliases (buildGroups es) p1)).flat).filter
          (fun s => s.length == d) =
        ((assignAll (addPass1Aliases (buildGroups es) p1)).flat.map Prod.fst).filter
          (fun s => s.length == d)) ∧
    List.Pairwise (fun a b : Str => b.length ≤ a.length)
      (sortedLiterals (assignAll (addPass1Aliases (buildGroups es) p1)).flat) :=
  ⟨rfl, fun d => filter_sortByDesc _ _ d, pairwise_sortByDesc _ _⟩

/-! ## Empty mentions are dropped silently -/

lemma groupStep_empty {g : List (Str × GroupInfo)} {e : Entity}
    (h : pstrip e.text = []) : groupStep g e = g := by
  simp only [groupStep]
  rw [if_pos h]

/-- Claim theorem C7: an entity whose text strips to empty contributes
nothing: `execute_replacement` on a list containing it equals
`execute_replacement` on the list with it removed — no canonical group,
no placeholder, no substitution, and (the embedding being total) no
error. -/
theorem C7_empty_mention (t : Str) (l1 l2 : List Entity) (e : Entity) (p1 : Pass1Result)
    (fn : Str) (h : pstrip e.text = []) :
    execute_replacement t (l1 ++ e :: l2) p1 fn =
      execute_replacement t (l1 ++ l2) p1 fn := by
  have hb : buildGroups (l1 ++ e :: l2) = buildGroups (l1 ++ l2) := by
    unfold buildGroups
    rw [List.foldl_append, List.foldl_cons, groupStep_empty h, ← List.foldl_append]
  unfold execute_replacement
  rw [hb]

/-- Witness for C7: a whitespace-only mention is dropped on a concrete
input. -/
theorem C7_witness :
    execute_replacement (("hi").toList) [⟨(" ").toList, ("person").toList, []⟩] ⟨[]⟩ [] =
      execute_replacement (("hi").toList) [] ⟨[]⟩ [] :=
  C7_empty_mention (("hi").toList) [] [] ⟨(" ").toList, ("person").toList, []⟩ ⟨[]⟩ []
    (by decide)

/-! ## The flat literal-to-placeholder map: last write wins -/

lemma lookupA_insertOW {β : Type} (m : List (Str × β)) (k s : Str) (v : β) :
    lookupA (insertOW m k v) s = if k = s then some v else lookupA m s := by
  induction m with
  | nil => simp [insertOW, lookupA]
  | cons kv rest ih =>
    obtain ⟨k', v'⟩ := kv
    simp only [insertOW]
    split
    · rename_i he
      subst he
      simp only [lookupA]
      by_cases h2 : k' = s <;> simp [h2]
    · rename_i hne
      simp only [lookupA, ih]
      by_cases h2 : k' = s
      · subst h2
        rw [if_pos rfl, if_neg (fun he => hne he.symm), if_pos rfl]
      · rw [if_neg h2, if_neg h2]

lemma lookupA_foldl_insertOW (ts : List Str) (ph : Str) (m : List (Str × Str)) (s : Str) :
    lookupA (ts.foldl (fun acc t => insertOW acc t ph) m) s =
      if s ∈ ts then some ph else lookupA m s := by
  induction ts generalizing m with
  | nil => simp
  | cons t ts' ih =>
    simp only [List.foldl_cons, ih, lookupA_insertOW, List.mem_cons]
    by_cases h1 : s ∈ ts'
    · simp [h1]
    · by_cases h2 : t = s
      · subst h2
        simp [h1]
      · simp only [h1, if_false, or_false]
        rw [if_neg h2, if_neg (fun he => h2 he.symm)]

/-- Claim theorem C9: processing one canonical group overwrites the flat
literal-to-placeholder map on every member string — after `assignStep`,
every literal in the group's member set looks up to THIS group's (freshly
numbered) placeholder, regardless of what any earlier group assigned,
while literals outside the member set keep their previous assignment.
Lookup being a function, every literal maps to exactly one placeholder id
at substitution time. -/
theorem C9_collision_overwrite (st : AssignState) (g : Str × GroupInfo) (s : Str) :
    (s ∈ g.2.texts →
      lookupA (assignStep st g).flat s =
        some (mkPlaceholder (pyUpper g.2.type)
          (match lookupA st.counters (pyUpper g.2.type) with
           | none => 1
           | some c => c + 1))) ∧
    (s ∉ g.2.texts → lookupA (assignStep st g).flat s = lookupA st.flat s) := by
  have hflat : (assignStep st g).flat =
      g.2.texts.foldl (fun acc t => insertOW acc t
        (mkPlaceholder (pyUpper g.2.type)
          ((lookupA (match lookupA st.counters (pyUpper g.2.type) with
            | none => insertOW st.counters (pyUpper g.2.type) 1
            | some c => insertOW st.counters (pyUpper g.2.type) (c + 1))
            (pyUpper g.2.type)).getD 1))) st.flat := rfl
  have hn : (lookupA (match lookupA st.counters (pyUpper g.2.type) with
      | none => insertOW st.counters (pyUpper g.2.type) 1
      | some c => insertOW st.counters (pyUpper g.2.type) (c + 1))
      (pyUpper g.2.type)).getD 1 =
      (match lookupA st.counters (pyUpper g.2.type) with
       | none => 1
       | some c => c + 1) := by
    cases hc : lookupA st.counters (pyUpper g.2.type) with
    | none => simp [lookupA_insertOW]
    | some c => simp [lookupA_insertOW]
  rw [hflat, hn]
  constructor
  · intro hs
    rw [lookupA_foldl_insertOW, if_pos hs]
  · intro hs
    rw [lookupA_foldl_insertOW, if_neg hs]

/-- Witness for C9: two groups both containing the literal `X`; after the
second group is processed, `X` maps to the second group's placeholder
`\x7bB_1\x7d`. -/
theorem C9_witness :
    lookupA (assignStep
        (assignStep ⟨[], [], []⟩
          ((("A").toList), ⟨("a").toList, [("X").toList, ("A").toList], []⟩))
        ((("B").toList), ⟨("b").toList, [("X").toList, ("B").toList], []⟩)).flat
      (("X").toList) =
      some (("{B_1}").toList) := by
  have h := (C9_collision_overwrite
    (assignStep ⟨[], [], []⟩
      ((("A").toList), ⟨("a").toList, [("X").toList, ("A").toList], []⟩))
    ((("B").toList), ⟨("b").toList, [("X").toList, ("B").toList], []⟩)
    (("X").toList)).1 (by decide)
  rw [h]
  decide

/-! ## Step B candidate selection -/

lemma bestFoldStep_cases (sim : SimFun) (tok cb ca : Str) (acc : ℚ × Option RepRec)
    (e : RepRec) :
    (bestFoldStep sim tok cb ca acc e = acc ∧
      (e.placeholder = tok → scoreOf sim cb ca e ≤ acc.1)) ∨
    (e.placeholder = tok ∧
      bestFoldStep sim tok cb ca acc e = (scoreOf sim cb ca e, some e) ∧
      acc.1 < scoreOf sim cb ca e) := by
  unfold bestFoldStep
  by_cases h1 : e.placeholder = tok
  · rw [if_pos h1]
    by_cases h2 : acc.1 < scoreOf sim cb ca e
    · right
      exact ⟨h1, by rw [if_pos h2], h2⟩
    · left
      exact ⟨by rw [if_neg h2], fun _ => le_of_not_lt h2⟩
  · left
    exact ⟨by rw [if_neg h1], fun h => absurd h h1⟩

lemma bestFold_go_spec (sim : SimFun) (tok cb ca : Str) :
    ∀ (log : List RepRec) (acc : ℚ × Option RepRec),
      acc.1 ≤ (log.foldl (bestFoldStep sim tok cb ca) acc).1 ∧
      (∀ e ∈ log, e.placeholder = tok →
        scoreOf sim cb ca e ≤ (log.foldl (bestFoldStep sim tok cb ca) acc).1) ∧
      (log.foldl (bestFoldStep sim tok cb ca) acc = acc ∨
        ∃ l1 e l2, log = l1 ++ e :: l2 ∧ e.placeholder = tok ∧
          log.foldl (bestFoldStep sim tok cb ca) acc = (scoreOf sim cb ca e, some e) ∧
          acc.1 < scoreOf sim cb ca e ∧
          (∀ e' ∈ l1, e'.placeholder = tok →
            scoreOf sim cb ca e' < scoreOf sim cb ca e) ∧
          (∀ e' ∈ l2, e'.placeholder = tok →
            scoreOf sim cb ca e' ≤ scoreOf sim cb ca e)) := by
  intro log
  induction log with
  | nil => intro acc; exact ⟨le_refl _, by simp, Or.inl rfl⟩
  | cons hd rest ih =>
    intro acc
    simp only [List.foldl_cons]
    obtain ⟨ih1, ih2, ih3⟩ := ih (bestFoldStep sim tok cb ca acc hd)
    rcases bestFoldStep_cases sim tok cb ca acc hd with ⟨heq, hle⟩ | ⟨hm, heq, hlt⟩
    · have ih1' : acc.1 ≤ (rest.foldl (bestFoldStep sim tok cb ca)
          (bestFoldStep sim tok cb ca acc hd)).1 := by
        rw [heq] at ih1 ⊢
        exact ih1
      refine ⟨ih1', ?_, ?_⟩
      · intro e he hm'
        rcases List.mem_cons.mp he with rfl | hmem
        · exact le_trans (hle hm') ih1'
        · exact ih2 e hmem hm'
      · rcases ih3 with h3 | ⟨l1, e, l2, hsplit, hm', hres, hacc, hl1, hl2⟩
        · left
          rw [h3, heq]
        · right
          have hacc' : acc.1 < scoreOf sim cb ca e := by
            rw [heq] at hacc
            exact hacc
          refine ⟨hd :: l1, e, l2, by rw [hsplit]; rfl, hm', hres, hacc', ?_, hl2⟩
          intro e' he' hm''
          rcases List.mem_cons.mp he' with rfl | hmem
          · exact lt_of_le_of_lt (hle hm'') hacc'
          · exact hl1 e' hmem hm''
    · have hone : (bestFoldStep sim tok cb ca acc hd).1 = scoreOf sim cb ca hd := by
        rw [heq]
      refine ⟨?_, ?_, ?_⟩
      · calc acc.1 ≤ (bestFoldStep sim tok cb ca acc hd).1 := by
              rw [hone]; exact le_of_lt hlt
          _ ≤ _ := ih1
      · intro e he hm'
        rcases List.mem_cons.mp he with rfl | hmem
        · rw [← hone]
          exact ih1
        · exact ih2 e hmem hm'
      · rcases ih3 with h3 | ⟨l1, e, l2, hsplit, hm', hres, hacc, hl1, hl2⟩
        · right
          refine ⟨[], hd, rest, rfl, hm, by rw [h3, heq], hlt, by simp, ?_⟩
          intro e' he' hm''
          have h4 := ih2 e' he' hm''
          rw [h3, hone] at h4
          exact h4
        · right
          have hacc' : scoreOf sim cb ca hd < scoreOf sim cb ca e := by
            rw [hone] at hacc
            exact hacc
          refine ⟨hd :: l1, e, l2, by rw [hsplit]; rfl, hm', hres,
            lt_trans hlt hacc', ?_, hl2⟩
          intro e' he' hm''
          rcases List.mem_cons.mp he' with rfl | hmem
          · exact hacc'
          · exact hl1 e' hmem hm''

/-- Claim theorem C10: when `restore_by_context`'s candidate loop
(`bestFold`, deanonymizer.py lines 89-115) selects a record, the selected
record attains the maximum score among records sharing the placeholder
id, every record BEFORE it in log order scores strictly lower (the
running best is only replaced by a strictly greater score), and hence on
ties the earliest maximal record in `replacement_log` order is selected. -/
theorem C10_tiebreak_earliest (sim : SimFun) (tok cb ca : Str) (log : List RepRec)
    (e : RepRec) (h : (bestFold sim tok cb ca log).2 = some e) :
    ∃ l1 l2, log = l1 ++ e :: l2 ∧ e.placeholder = tok ∧
      (bestFold sim tok cb ca log).1 = scoreOf sim cb ca e ∧
      (∀ e' ∈ l1, e'.placeholder = tok →
        scoreOf sim cb ca e' < scoreOf sim cb ca e) ∧
      (∀ e' ∈ log, e'.placeholder = tok →
        scoreOf sim cb ca e' ≤ scoreOf sim cb ca e) := by
  obtain ⟨_, hall, hcase⟩ := bestFold_go_spec sim tok cb ca log (0, none)
  unfold bestFold at h ⊢
  rcases hcase with heq | ⟨l1, e0, l2, hsplit, hm, hres, _, hl1, hl2⟩
  · rw [heq] at h
    cases h
  · rw [hres] at h
    injection h with h'
    subst h'
    refine ⟨l1, l2, hsplit, hm, by rw [hres], hl1, ?_⟩
    intro e' he' hm'
    have := hall e' he' hm'
    rw [hres] at this
    exact this

/-- Witness for C10: a log with two records sharing the placeholder id
and identical contexts (so equal, maximal scores under the discrete
similarity); the fold selects the FIRST of them, `recA`. -/
theorem C10_witness :
    ∃ l1 l2, logAB = l1 ++ recA :: l2 ∧ recA.placeholder = ("{P_1}").toList ∧
      (bestFold simDisc (("{P_1}").toList) (("x").toList) (("y").toList) logAB).1 =
        scoreOf simDisc (("x").toList) (("y").toList) recA ∧
      (∀ e' ∈ l1, e'.placeholder = ("{P_1}").toList →
        scoreOf simDisc (("x").toList) (("y").toList) e' <
          scoreOf simDisc (("x").toList) (("y").toList) recA) ∧
      (∀ e' ∈ logAB, e'.placeholder = ("{P_1}").toList →
        scoreOf simDisc (("x").toList) (("y").toList) e' ≤
          scoreOf simDisc (("x").toList) (("y").toList) recA) := by
  have h : (bestFold simDisc (("{P_1}").toList) (("x").toList) (("y").toList) logAB).2 =
      some recA := by
    have hs : scoreOf simDisc (("x").toList) (("y").toList) recA = 1 := by
      simp [scoreOf, simDisc, recA]
    have hs2 : scoreOf simDisc (("x").toList) (("y").toList) recB = 1 := by
      simp [scoreOf, simDisc, recB]
    simp only [bestFold, logAB, List.foldl_cons, List.foldl_nil, bestFoldStep]
    rw [if_pos (by decide : recA.placeholder = ("{P_1}").toList)]
    rw [if_pos (by rw [hs]; norm_num : ((0 : ℚ), (none : Option RepRec)).1 <
      scoreOf simDisc (("x").toList) (("y").toList) recA)]
    rw [if_pos (by decide : recB.placeholder = ("{P_1}").toList)]
    rw [if_neg (by rw [hs, hs2]; norm_num :
      ¬ ((scoreOf simDisc (("x").toList) (("y").toList) recA, some recA).1 <
        scoreOf simDisc (("x").toList) (("y").toList) recB))]
  obtain ⟨l1, l2, hsplit, hm, hsc, hl1, hall⟩ := C10_tiebreak_earliest simDisc
    (("{P_1}").toList) (("x").toList) (("y").toList) logAB recA h
  exact ⟨l1, l2, hsplit, hm, hsc, hl1, hall⟩

lemma contextStep_eq (sim : SimFun) (log : List RepRec) (t : Str) (pos : ℕ) (tok : Str) :
    contextStep sim log t pos tok =
      match bestFold sim tok (sliceCtxBefore t pos)
          (sliceCtxAfter t (pos + tok.length)) log with
      | (s, some e) =>
        if (1 : ℚ) / 2 < s then (replaceAt t pos tok.length e.original_text, true)
        else (t, false)
      | (_, none) => (t, false) := rfl

lemma contextStep_some {sim : SimFun} {log : List RepRec} {t : Str} {pos : ℕ} {tok : Str}
    {s : ℚ} {e : RepRec}
    (hb : bestFold sim tok (sliceCtxBefore t pos)
      (sliceCtxAfter t (pos + tok.length)) log = (s, some e)) :
    contextStep sim log t pos tok =
      if (1 : ℚ) / 2 < s then (replaceAt t pos tok.length e.original_text, true)
      else (t, false) := by
  rw [contextStep_eq, hb]

lemma contextStep_none {sim : SimFun} {log : List RepRec} {t : Str} {pos : ℕ} {tok : Str}
    {s : ℚ}
    (hb : bestFold sim tok (sliceCtxBefore t pos)
      (sliceCtxAfter t (pos + tok.length)) log = (s, none)) :
    contextStep sim log t pos tok = (t, false) := by
  rw [contextStep_eq, hb]

/-- Claim theorem C4: in Step B, a token is replaced only when the best
candidate's mean context-similarity score strictly exceeds one half — a
best score `≤ 1/2` (in particular exactly `1/2`) never triggers a
replacement — and when a replacement happens the text spliced in is the
`original_text` of a record that attains the maximum score among the
records sharing the token's placeholder id.  Proved for every similarity
oracle `sim`. -/
theorem C4_threshold_selection (sim : SimFun) (log : List RepRec) (t : Str) (pos : ℕ)
    (tok : Str) :
    (∀ t' : Str, contextStep sim log t pos tok = (t', true) →
      ∃ e ∈ log, e.placeholder = tok ∧
        (1 : ℚ) / 2 < scoreOf sim (sliceCtxBefore t pos)
          (sliceCtxAfter t (pos + tok.length)) e ∧
        t' = replaceAt t pos tok.length e.original_text ∧
        (∀ e' ∈ log, e'.placeholder = tok →
          scoreOf sim (sliceCtxBefore t pos) (sliceCtxAfter t (pos + tok.length)) e' ≤
            scoreOf sim (sliceCtxBefore t pos) (sliceCtxAfter t (pos + tok.length)) e)) ∧
    ((bestFold sim tok (sliceCtxBefore t pos) (sliceCtxAfter t (pos + tok.length)) log).1 ≤
        (1 : ℚ) / 2 →
      contextStep sim log t pos tok = (t, false)) := by
  constructor
  · intro t' h
    rcases hb : bestFold sim tok (sliceCtxBefore t pos)
      (sliceCtxAfter t (pos + tok.length)) log with ⟨s, oe⟩
    cases oe with
    | none =>
      rw [contextStep_none hb] at h
      simp at h
    | some e =>
      rw [contextStep_some hb] at h
      by_cases hlt : (1 : ℚ) / 2 < s
      · rw [if_pos hlt] at h
        have ht' : t' = replaceAt t pos tok.length e.original_text :=
          (congrArg Prod.fst h).symm
        obtain ⟨_, hall, hcase⟩ := bestFold_go_spec sim tok (sliceCtxBefore t pos)
          (sliceCtxAfter t (pos + tok.length)) log (0, none)
        unfold bestFold at hb
        rcases hcase with heq | ⟨l1, e0, l2, hsplit, hm, hres, _, _, _⟩
        · rw [heq] at hb
          exact absurd (congrArg Prod.snd hb) (by simp)
        · rw [hres] at hb
          have hs : scoreOf sim (sliceCtxBefore t pos)
              (sliceCtxAfter t (pos + tok.length)) e0 = s := congrArg Prod.fst hb
          have he : e0 = e := by
            have h2 := congrArg Prod.snd hb
            simp only at h2
            injection h2
          subst he
          refine ⟨e0, by rw [hsplit]; simp, hm, by rw [hs]; exact hlt, ht', ?_⟩
          intro e' he' hm'
          have h5 := hall e' he' hm'
          rw [hres] at h5
          exact h5
      · rw [if_neg hlt] at h
        simp at h
  · intro hle
    rcases hb : bestFold sim tok (sliceCtxBefore t pos)
      (sliceCtxAfter t (pos + tok.length)) log with ⟨s, oe⟩
    cases oe with
    | none => exact contextStep_none hb
    | some e =>
      rw [contextStep_some hb]
      rw [hb] at hle
      rw [if_neg (not_lt.mpr hle)]

/-- Witness for C4, discharging both hypotheses at concrete inputs: under
the discrete similarity the token in `tCtx` is replaced (score 1 > 1/2)
with a candidate's original text, and under the constant-one-half
similarity (best score exactly 1/2) the step replaces nothing. -/
theorem C4_witness :
    (∃ e ∈ logAB, (("xaay").toList : Str) = replaceAt tCtx 1 tokP.length e.original_text) ∧
    contextStep simHalf logAB tCtx 1 tokP = (tCtx, false) := by
  have hcb : sliceCtxBefore tCtx 1 = ("x").toList := by decide
  have hca : sliceCtxAfter tCtx (1 + tokP.length) = ("y").toList := by decide
  constructor
  · have hs : scoreOf simDisc (("x").toList) (("y").toList) recA = 1 := by
      simp [scoreOf, simDisc, recA]
    have hs2 : scoreOf simDisc (("x").toList) (("y").toList) recB = 1 := by
      simp [scoreOf, simDisc, recB]
    have hb1 : bestFold simDisc tokP (sliceCtxBefore tCtx 1)
        (sliceCtxAfter tCtx (1 + tokP.length)) logAB = (1, some recA) := by
      rw [hcb, hca]
      simp only [bestFold, logAB, List.foldl_cons, List.foldl_nil, bestFoldStep]
      rw [if_pos (by decide : recA.placeholder = tokP)]
      rw [if_pos (by rw [hs]; norm_num :
        ((0 : ℚ), (none : Option RepRec)).1 <
          scoreOf simDisc (("x").toList) (("y").toList) recA)]
      rw [if_pos (by decide : recB.placeholder = tokP)]
      rw [if_neg (by rw [hs, hs2]; norm_num :
        ¬ ((scoreOf simDisc (("x").toList) (("y").toList) recA, some recA).1 <
          scoreOf simDisc (("x").toList) (("y").toList) recB))]
      rw [hs]
    have hstep : contextStep simDisc logAB tCtx 1 tokP = (("xaay").toList, true) := by
      rw [contextStep_some hb1, if_pos (by norm_num : (1 : ℚ) / 2 < 1)]
      decide
    obtain ⟨e, he, _, _, ht', _⟩ :=
      (C4_threshold_selection simDisc logAB tCtx 1 tokP).1 (("xaay").toList) hstep
    exact ⟨e, he, ht'⟩
  · have hsH : ∀ e : RepRec, scoreOf simHalf (("x").toList) (("y").toList) e = 1 / 2 := by
      intro e
      simp [scoreOf, simHalf]
    refine (C4_threshold_selection simHalf logAB tCtx 1 tokP).2 ?_
    rw [hcb, hca]
    simp only [bestFold, logAB, List.foldl_cons, List.foldl_nil, bestFoldStep]
    rw [if_pos (by decide : recA.placeholder = tokP)]
    rw [if_pos (by rw [hsH recA]; norm_num :
      ((0 : ℚ), (none : Option RepRec)).1 <
        scoreOf simHalf (("x").toList) (("y").toList) recA)]
    rw [if_pos (by decide : recB.placeholder = tokP)]
    rw [if_neg (by rw [hsH recA, hsH recB]; norm_num :
      ¬ ((scoreOf simHalf (("x").toList) (("y").toList) recA, some recA).1 <
        scoreOf simHalf (("x").toList) (("y").toList) recB))]
    rw [hsH recA]


/-! ## The token scanner: soundness and separation -/

lemma tryTok_sound {cs tk : Str} (h : tryTok cs = some tk) :
    ∃ us ds rest3, tk = '{' :: us ++ '_' :: ds ++ ['}'] ∧ cs = tk ++ rest3 ∧
      us ≠ [] ∧ ds ≠ [] ∧ (∀ c ∈ us, isUpperAZ c = true) ∧
      (∀ c ∈ ds, isDigit09 c = true) := by
  unfold tryTok at h
  split at h
  · rename_i rest
    dsimp only at h
    split at h
    · cases h
    · rename_i hus
      split at h
      · rename_i rest2 hdrop
        split at h
        · cases h
        · rename_i hds
          split at h
          · rename_i r3 hdrop2
            injection h with h'
            subst h'
            obtain ⟨s1, hs1⟩ :=
              (List.takeWhile_prefix isUpperAZ : rest.takeWhile isUpperAZ <+: rest)
            have hx1 := congrArg (List.drop (rest.takeWhile isUpperAZ).length) hs1
            rw [List.drop_left] at hx1
            rw [hdrop] at hx1
            subst hx1
            obtain ⟨s2, hs2⟩ :=
              (List.takeWhile_prefix isDigit09 : rest2.takeWhile isDigit09 <+: rest2)
            have hx2 := congrArg (List.drop (rest2.takeWhile isDigit09).length) hs2
            rw [List.drop_left] at hx2
            rw [hdrop2] at hx2
            subst hx2
            refine ⟨rest.takeWhile isUpperAZ, rest2.takeWhile isDigit09, r3,
              rfl, ?_, hus, hds, ?_, ?_⟩
            · conv_lhs => rw [← hs1]
              conv_lhs => rw [← hs2]
              simp
            · intro c hc
              exact List.mem_takeWhile_imp hc
            · intro c hc
              exact List.mem_takeWhile_imp hc
          · cases h
      · cases h
  · cases h

lemma findTokensAux_zero (cs : Str) (i : ℕ) : findTokensAux 0 cs i = [] := rfl

lemma findTokensAux_nil (fuel i : ℕ) : findTokensAux (fuel + 1) [] i = [] := rfl

lemma findTokensAux_cons (fuel : ℕ) (c : Char) (rest : Str) (i : ℕ) :
    findTokensAux (fuel + 1) (c :: rest) i =
      match tryTok (c :: rest) with
      | some tk =>
          (i, tk) :: findTokensAux fuel ((c :: rest).drop tk.length) (i + tk.length)
      | none => findTokensAux fuel rest (i + 1) := rfl

lemma occAt_zero_append (n x : Str) : occAt n (n ++ x) 0 := by
  refine ⟨by simp, ?_⟩
  rw [List.drop_zero, List.take_append_eq_append_take]
  simp

lemma findTokensAux_sound : ∀ (fuel : ℕ) (cs : Str) (i p : ℕ) (tk : Str),
    (p, tk) ∈ findTokensAux fuel cs i → ∃ k, p = i + k ∧ occAt tk cs k := by
  intro fuel
  induction fuel with
  | zero => intro cs i p tk h; rw [findTokensAux_zero] at h; cases h
  | succ fuel ih =>
    intro cs i p tk h
    cases cs with
    | nil => rw [findTokensAux_nil] at h; cases h
    | cons c rest =>
      rw [findTokensAux_cons] at h
      cases htt : tryTok (c :: rest) with
      | none =>
        rw [htt] at h
        obtain ⟨k, rfl, hocc⟩ := ih rest (i + 1) _ tk h
        refine ⟨1 + k, by omega, ?_⟩
        have := occAt_append_of_right hocc [c]
        simpa using this
      | some tk0 =>
        rw [htt] at h
        rcases List.mem_cons.mp h with heq | hmem
        · have hp : p = i := congrArg Prod.fst heq
          have htk : tk = tk0 := congrArg Prod.snd heq
          subst hp; subst htk
          obtain ⟨us, ds, r3, _, hpre, _⟩ := tryTok_sound htt
          refine ⟨0, by omega, ?_⟩
          rw [hpre]
          exact occAt_zero_append tk r3
        · obtain ⟨k, hp, hocc⟩ := ih _ _ _ tk hmem
          obtain ⟨us, ds, r3, _, hpre, _⟩ := tryTok_sound htt
          have hlen : tk0.length ≤ (c :: rest).length := by
            rw [hpre]; simp
          refine ⟨tk0.length + k, by omega, occAt_of_drop hlen hocc⟩

lemma findTokensAux_lb {fuel : ℕ} {cs : Str} {i : ℕ} {q : ℕ × Str}
    (h : q ∈ findTokensAux fuel cs i) : i ≤ q.1 := by
  obtain ⟨k, hp, _⟩ := findTokensAux_sound fuel cs i q.1 q.2 (by simpa using h)
  omega

lemma findTokensAux_pairwise :
    ∀ (fuel : ℕ) (cs : Str) (i : ℕ),
      List.Pairwise (fun a b : ℕ × Str => a.1 + a.2.length ≤ b.1)
        (findTokensAux fuel cs i) := by
  intro fuel
  induction fuel with
  | zero => intro cs i; rw [findTokensAux_zero]; exact List.Pairwise.nil
  | succ fuel ih =>
    intro cs i
    cases cs with
    | nil => rw [findTokensAux_nil]; exact List.Pairwise.nil
    | cons c rest =>
      rw [findTokensAux_cons]
      cases htt : tryTok (c :: rest) with
      | none => exact ih rest (i + 1)
      | some tk0 =>
        refine List.Pairwise.cons ?_ (ih _ _)
        intro b hb
        have := findTokensAux_lb hb
        simpa using this

lemma findTokensAux_shape : ∀ (fuel : ℕ) (cs : Str) (i : ℕ) {q : ℕ × Str},
    q ∈ findTokensAux fuel cs i → ∃ cs2, tryTok cs2 = some q.2 := by
  intro fuel
  induction fuel with
  | zero => intro cs i q h; rw [findTokensAux_zero] at h; cases h
  | succ fuel ih =>
    intro cs i q h
    cases cs with
    | nil => rw [findTokensAux_nil] at h; cases h
    | cons c rest =>
      rw [findTokensAux_cons] at h
      cases htt : tryTok (c :: rest) with
      | none => rw [htt] at h; exact ih _ _ h
      | some tk0 =>
        rw [htt] at h
        rcases List.mem_cons.mp h with heq | hmem
        · have htk : q.2 = tk0 := congrArg Prod.snd heq
          exact ⟨c :: rest, by rw [htt, htk]⟩
        · exact ih _ _ hmem

lemma takeWhile_all_cons {p : Char → Bool} :
    ∀ (us : Str) (x : Char) (r : Str), (∀ c ∈ us, p c = true) → p x = false →
      (us ++ x :: r).takeWhile p = us := by
  intro us
  induction us with
  | nil =>
    intro x r _ hx
    simp [List.takeWhile_cons, hx]
  | cons u us ih =>
    intro x r hall hx
    rw [List.cons_append, List.takeWhile_cons, hall u (List.mem_cons_self u us)]
    rw [ih x r (fun c hc => hall c (List.mem_cons_of_mem u hc)) hx]
    rfl

lemma tryTok_token (us ds r : Str) (hus : us ≠ []) (hds : ds ≠ [])
    (hu : ∀ c ∈ us, isUpperAZ c = true) (hd : ∀ c ∈ ds, isDigit09 c = true) :
    tryTok ('{' :: (us ++ '_' :: (ds ++ '}' :: r))) =
      some ('{' :: us ++ '_' :: ds ++ ['}']) := by
  have h1 : (us ++ '_' :: (ds ++ '}' :: r)).takeWhile isUpperAZ = us :=
    takeWhile_all_cons us '_' (ds ++ '}' :: r) hu (by decide)
  have h2 : (us ++ '_' :: (ds ++ '}' :: r)).drop us.length = '_' :: (ds ++ '}' :: r) :=
    List.drop_left us _
  have h3 : (ds ++ '}' :: r).takeWhile isDigit09 = ds :=
    takeWhile_all_cons ds '}' r hd (by decide)
  have h4 : (ds ++ '}' :: r).drop ds.length = '}' :: r := List.drop_left ds _
  simp only [tryTok]
  rw [h1, if_neg hus, h2]
  simp only []
  rw [h3, if_neg hds, h4]
  rfl

lemma tryTok_nil : tryTok [] = none := rfl

lemma findTokensAux_ne_nil : ∀ (fuel : ℕ) (cs : Str) (i k : ℕ) (tk0 : Str),
    k < fuel → tryTok (cs.drop k) = some tk0 → findTokensAux fuel cs i ≠ [] := by
  intro fuel
  induction fuel with
  | zero => intro cs i k tk0 hk; omega
  | succ fuel ih =>
    intro cs i k tk0 hk htt
    cases cs with
    | nil =>
      rw [List.drop_nil, tryTok_nil] at htt
      cases htt
    | cons c rest =>
      rw [findTokensAux_cons]
      cases htc : tryTok (c :: rest) with
      | some tk => simp
      | none =>
        cases k with
        | zero => rw [List.drop_zero, htc] at htt; cases htt
        | succ k =>
          rw [List.drop_succ_cons] at htt
          exact ih rest (i + 1) k tk0 (by omega) htt

lemma findTokens_ne_nil {t tok us ds : Str} {p : ℕ} (hocc : occAt tok t p)
    (hshape : tok = '{' :: us ++ '_' :: ds ++ ['}']) (hus : us ≠ []) (hds : ds ≠ [])
    (hu : ∀ c ∈ us, isUpperAZ c = true) (hd : ∀ c ∈ ds, isDigit09 c = true) :
    findTokens t ≠ [] := by
  obtain ⟨a, b, rfl, rfl⟩ := (occAt_iff_append tok t p).mp hocc
  have hdrop : (a ++ tok ++ b).drop a.length = tok ++ b := by
    rw [List.append_assoc, List.drop_left]
  have htt : tryTok ((a ++ tok ++ b).drop a.length) =
      some ('{' :: us ++ '_' :: ds ++ ['}']) := by
    rw [hdrop, hshape]
    have he : ('{' :: us ++ '_' :: ds ++ ['}']) ++ b =
        '{' :: (us ++ '_' :: (ds ++ '}' :: b)) := by simp
    rw [he]
    exact tryTok_token us ds b hus hds hu hd
  have hlen : a.length < (a ++ tok ++ b).length + 1 := by
    simp only [List.length_append]
    omega
  exact findTokensAux_ne_nil _ _ 0 a.length _ hlen htt

/-! ## Survival of occurrences across distant replacements -/

lemma occAt_take_of_le {n t : Str} {i q : ℕ} (hocc : occAt n t i)
    (hq : i + n.length ≤ q) : occAt n (t.take q) i := by
  obtain ⟨hb, ht⟩ := hocc
  refine ⟨by rw [List.length_take]; omega, ?_⟩
  rw [List.drop_take, List.take_take, Nat.min_eq_left (by omega)]
  exact ht

lemma occAt_drop_of_ge {n t : Str} {i m : ℕ} (hocc : occAt n t i) (hm : m ≤ i) :
    occAt n (t.drop m) (i - m) := by
  obtain ⟨hb, ht⟩ := hocc
  refine ⟨by rw [List.length_drop]; omega, ?_⟩
  rw [List.drop_drop]
  have he : m + (i - m) = i := by omega
  rw [he]
  exact ht

lemma occAt_replaceAt_of_ge {n t v : Str} {i q l : ℕ} (hocc : occAt n t i)
    (hq : i + n.length ≤ q) : occAt n (replaceAt t q l v) i := by
  unfold replaceAt
  have h1 : occAt n (t.take q) i := occAt_take_of_le hocc hq
  have h2 := occAt_append_of_left h1 (v ++ t.drop (q + l))
  rwa [← List.append_assoc] at h2

lemma occAt_replaceAt_of_le {n t v : Str} {i q l : ℕ} (hocc : occAt n t i)
    (hq : q + l ≤ i) : occAt n (replaceAt t q l v) (q + (v.length + (i - (q + l)))) := by
  unfold replaceAt
  have h1 : occAt n (t.drop (q + l)) (i - (q + l)) := occAt_drop_of_ge hocc (by omega)
  have h2 := occAt_append_of_right h1 v
  have h3 := occAt_append_of_right h2 (t.take q)
  have hqt : q ≤ t.length := by
    obtain ⟨hb, _⟩ := hocc
    omega
  rw [List.append_assoc]
  rwa [List.length_take, Nat.min_eq_left hqt] at h3

/-! ## The Step C loop: equations, counting, and skipped tokens -/

lemma canonStep_unknown {m : List (Str × PhInfo)} {tok : Str}
    (h : lookupA m tok = none) (t : Str) (pos : ℕ) :
    canonStep m t pos tok = (t, false) := by
  unfold canonStep
  rw [h]

lemma canonStep_known {m : List (Str × PhInfo)} {tok : Str} {info : PhInfo}
    (h : lookupA m tok = some info) (t : Str) (pos : ℕ) :
    canonStep m t pos tok = (replaceAt t pos tok.length info.value, true) := by
  unfold canonStep
  rw [h]

lemma canonGo_nil (m : List (Str × PhInfo)) (t : Str) : canonGo m [] t = (t, 0) := rfl

lemma canonGo_cons (m : List (Str × PhInfo)) (pos : ℕ) (tok : Str)
    (rest : List (ℕ × Str)) (t : Str) :
    canonGo m ((pos, tok) :: rest) t =
      ((canonGo m rest (canonStep m t pos tok).1).1,
       (canonGo m rest (canonStep m t pos tok).1).2 +
         (if (canonStep m t pos tok).2 then 1 else 0)) := rfl

lemma canonGo_append (m : List (Str × PhInfo)) :
    ∀ (L1 L2 : List (ℕ × Str)) (t : Str),
      (canonGo m (L1 ++ L2) t).1 = (canonGo m L2 (canonGo m L1 t).1).1 := by
  intro L1
  induction L1 with
  | nil => intro L2 t; rw [List.nil_append, canonGo_nil]
  | cons q L1 ih =>
    intro L2 t
    obtain ⟨pos, tok⟩ := q
    rw [List.cons_append, canonGo_cons, canonGo_cons]
    exact ih L2 (canonStep m t pos tok).1

lemma canonGo_count (m : List (Str × PhInfo)) :
    ∀ (L : List (ℕ × Str)) (t : Str),
      (canonGo m L t).2 =
        (L.filter (fun q => (lookupA m q.2).isSome)).length := by
  intro L
  induction L with
  | nil => intro t; rw [canonGo_nil, List.filter_nil]; rfl
  | cons q L ih =>
    intro t
    obtain ⟨pos, tok⟩ := q
    rw [canonGo_cons, List.filter_cons]
    cases hl : lookupA m tok with
    | none =>
      rw [canonStep_unknown hl]
      simp only [hl, Option.isSome_none, Bool.false_eq_true, if_false]
      rw [ih t]
      rfl
    | some info =>
      rw [canonStep_known hl]
      simp only [hl, Option.isSome_some, if_true]
      rw [List.length_cons, ih (replaceAt t pos tok.length info.value)]

lemma canonGo_preserves_right (m : List (Str × PhInfo)) {tok : Str} {pos : ℕ} :
    ∀ (L : List (ℕ × Str)) (t : Str),
      (∀ q ∈ L, pos + tok.length ≤ q.1) → occAt tok t pos →
      occAt tok (canonGo m L t).1 pos := by
  intro L
  induction L with
  | nil => intro t _ hocc; rw [canonGo_nil]; exact hocc
  | cons q L ih =>
    intro t hall hocc
    obtain ⟨p1, tk1⟩ := q
    rw [canonGo_cons]
    refine ih (canonStep m t p1 tk1).1 (fun q hq => hall q (List.mem_cons_of_mem _ hq)) ?_
    cases hl : lookupA m tk1 with
    | none => rw [canonStep_unknown hl]; exact hocc
    | some info =>
      rw [canonStep_known hl]
      exact occAt_replaceAt_of_ge hocc (hall (p1, tk1) (List.mem_cons_self _ _))

lemma canonGo_tracks_left (m : List (Str × PhInfo)) {tok : Str} :
    ∀ (L : List (ℕ × Str)) (t : Str) (pos : ℕ),
      (∀ q ∈ L, q.1 + q.2.length ≤ pos) →
      List.Pairwise (fun a b : ℕ × Str => b.1 + b.2.length ≤ a.1) L →
      occAt tok t pos →
      ∃ p2, occAt tok (canonGo m L t).1 p2 := by
  intro L
  induction L with
  | nil => intro t pos _ _ hocc; rw [canonGo_nil]; exact ⟨pos, hocc⟩
  | cons q L ih =>
    intro t pos hall hpw hocc
    obtain ⟨p1, tk1⟩ := q
    rw [canonGo_cons]
    rcases List.pairwise_cons.mp hpw with ⟨hhead, htail⟩
    cases hl : lookupA m tk1 with
    | none =>
      rw [canonStep_unknown hl]
      exact ih t pos (fun q hq => hall q (List.mem_cons_of_mem _ hq)) htail hocc
    | some info =>
      rw [canonStep_known hl]
      have hle : p1 + tk1.length ≤ pos := hall (p1, tk1) (List.mem_cons_self _ _)
      refine ih _ (p1 + (info.value.length + (pos - (p1 + tk1.length))))
        (fun q hq => ?_) htail (occAt_replaceAt_of_le hocc hle)
      have := hhead q hq
      omega

/-- C8: a placeholder token scanned in the Step C input whose id is absent
from `mappings` is skipped by `canonStep` (text unchanged, no count bump);
`restore_by_canonical` counts only scanned tokens with known ids, so the
unknown token never contributes to `fallback_count`; the token still occurs
in the final output of `run_deanonymize`, and the final statistics report it
under `remaining_placeholders` (which is therefore at least 1), a field
computed independently of `fallback_count`. -/
theorem C8_unknown_id (sim : SimFun) (t0 : Str) (mp : MappingDict) (pos : ℕ) (tok : Str)
    (tB : Str)
    (htB : tB = (restore_by_context sim (restore_by_position t0 mp.replacement_log).1
      mp.replacement_log).1)
    (hmem : (pos, tok) ∈ findTokens tB)
    (hunk : lookupA mp.mappings tok = none) :
    (∀ t' p', canonStep mp.mappings t' p' tok = (t', false)) ∧
    (restore_by_canonical tB mp.mappings).2 =
      ((findTokens tB).filter (fun q => (lookupA mp.mappings q.2).isSome)).length ∧
    (∃ p2, occAt tok (run_deanonymize sim t0 mp).1 p2) ∧
    1 ≤ (run_deanonymize sim t0 mp).2.remaining_placeholders ∧
    (run_deanonymize sim t0 mp).2.fallback_count =
      (restore_by_canonical tB mp.mappings).2 := by
  have hocc : occAt tok tB pos := by
    obtain ⟨k, hk, hocc⟩ := findTokensAux_sound _ tB 0 pos tok hmem
    rwa [show pos = k by omega]
  have hpw := findTokensAux_pairwise (tB.length + 1) tB 0
  obtain ⟨A, B, hsplit⟩ := List.append_of_mem hmem
  rw [show findTokensAux (tB.length + 1) tB 0 = findTokens tB from rfl, hsplit] at hpw
  obtain ⟨pwA, pwCons, hcross⟩ := List.pairwise_append.mp hpw
  obtain ⟨hB, _⟩ := List.pairwise_cons.mp pwCons
  have hA : ∀ a ∈ A, a.1 + a.2.length ≤ pos := fun a ha =>
    hcross a ha (pos, tok) (List.mem_cons_self _ _)
  have hrev : (findTokens tB).reverse = B.reverse ++ (pos, tok) :: A.reverse := by
    rw [hsplit, List.reverse_append, List.reverse_cons, List.append_assoc,
      List.singleton_append]
  have ht1 : occAt tok (canonGo mp.mappings B.reverse tB).1 pos :=
    canonGo_preserves_right mp.mappings B.reverse tB
      (fun q hq => hB q (List.mem_reverse.mp hq)) hocc
  have hsurv : ∃ p2, occAt tok (restore_by_canonical tB mp.mappings).1 p2 := by
    rw [restore_by_canonical_eq, hrev, canonGo_append, canonGo_cons,
      canonStep_unknown hunk]
    exact canonGo_tracks_left mp.mappings A.reverse _ pos
      (fun q hq => hA q (List.mem_reverse.mp hq))
      (List.pairwise_reverse.mpr pwA) ht1
  have hfinal : (run_deanonymize sim t0 mp).1 = (restore_by_canonical tB mp.mappings).1 := by
    rw [run_deanonymize_eq, ← htB]
  have hshape : ∃ us ds, tok = '{' :: us ++ '_' :: ds ++ ['}'] ∧ us ≠ [] ∧ ds ≠ [] ∧
      (∀ c ∈ us, isUpperAZ c = true) ∧ (∀ c ∈ ds, isDigit09 c = true) := by
    obtain ⟨cs2, htt⟩ := findTokensAux_shape _ tB 0 hmem
    obtain ⟨us, ds, r3, hsh, _, hus, hds, hu, hd⟩ := tryTok_sound htt
    exact ⟨us, ds, hsh, hus, hds, hu, hd⟩
  refine ⟨fun t' p' => canonStep_unknown hunk t' p', ?_, ?_, ?_, ?_⟩
  · rw [restore_by_canonical_eq, canonGo_count, List.filter_reverse,
      List.length_reverse]
  · obtain ⟨p2, hp2⟩ := hsurv
    exact ⟨p2, hfinal ▸ hp2⟩
  · have hrem : (run_deanonymize sim t0 mp).2.remaining_placeholders =
        (findTokens (run_deanonymize sim t0 mp).1).length := rfl
    rw [hrem]
    obtain ⟨p2, hp2⟩ := hsurv
    obtain ⟨us, ds, hsh, hus, hds, hu, hd⟩ := hshape
    have hne : findTokens (run_deanonymize sim t0 mp).1 ≠ [] :=
      findTokens_ne_nil (hfinal ▸ hp2) hsh hus hds hu hd
    have := List.length_pos.mpr hne
    omega
  · rw [run_deanonymize_eq, ← htB]

theorem C8_witness :
    ("{PERSON_1}").toList =
      (restore_by_context simZero
        (restore_by_position (("{PERSON_1}").toList)
          (MappingDict.mk [] 0 [] []).replacement_log).1
        (MappingDict.mk [] 0 [] []).replacement_log).1 ∧
    (0, ("{PERSON_1}").toList) ∈ findTokens (("{PERSON_1}").toList) ∧
    lookupA (MappingDict.mk [] 0 [] []).mappings (("{PERSON_1}").toList) = none ∧
    ((∀ t' p', canonStep (MappingDict.mk [] 0 [] []).mappings t' p'
        (("{PERSON_1}").toList) = (t', false)) ∧
      (restore_by_canonical (("{PERSON_1}").toList)
          (MappingDict.mk [] 0 [] []).mappings).2 =
        ((findTokens (("{PERSON_1}").toList)).filter
          (fun q => (lookupA (MappingDict.mk [] 0 [] []).mappings q.2).isSome)).length ∧
      (∃ p2, occAt (("{PERSON_1}").toList)
        (run_deanonymize simZero (("{PERSON_1}").toList)
          (MappingDict.mk [] 0 [] [])).1 p2) ∧
      1 ≤ (run_deanonymize simZero (("{PERSON_1}").toList)
        (MappingDict.mk [] 0 [] [])).2.remaining_placeholders ∧
      (run_deanonymize simZero (("{PERSON_1}").toList)
        (MappingDict.mk [] 0 [] [])).2.fallback_count =
        (restore_by_canonical (("{PERSON_1}").toList)
          (MappingDict.mk [] 0 [] []).mappings).2) :=
  ⟨by decide, by decide, by decide,
   C8_unknown_id simZero (("{PERSON_1}").toList) (MappingDict.mk [] 0 [] []) 0
     (("{PERSON_1}").toList) (("{PERSON_1}").toList)
     (by decide) (by decide) (by decide)⟩
